import Mathlib

/-!
Verification of the HAR post-extraction pipeline (src/app.py).

The JSON data model is a shallow embedding of Python's JSON values as
produced by `json.loads`: numbers are modelled as integers (float values
are outside the scope of this embedding), strings are Lean strings
(valid Unicode; Python's lone surrogates are not representable), objects
are ordered key/value sequences as Python dicts are.  Python `dict`
assignment, `in`, subscription and `.get` are modelled explicitly,
including the exceptions they raise, because the source relies on
exception handling for control flow.
-/

mutual
/-- A JSON value as handled by the Python source (ints in place of all numbers). -/
inductive JVal where
  | null
  | bool (b : Bool)
  | int (n : Int)
  | str (s : String)
  | arr (xs : JArr)
  | obj (ps : JObj)
/-- An ordered sequence of JSON values (a JSON array / Python list). -/
inductive JArr where
  | nil
  | cons (x : JVal) (xs : JArr)
/-- An ordered key/value sequence (a JSON object / Python dict, insertion order). -/
inductive JObj where
  | nil
  | cons (k : String) (v : JVal) (ps : JObj)
end

/-- The exceptions the source's control flow can observe. -/
inductive PyExn where
  | typeError
  | keyError
  | attrError
  | overflowError
  deriving DecidableEq, Repr

/-- A Python dict with string keys built by the extraction code (a flat record). -/
abbrev Rec : Type := List (String × JVal)

def JArr.toList : JArr → List JVal
  | .nil => []
  | .cons x xs => x :: JArr.toList xs

def JArr.ofList : List JVal → JArr
  | [] => .nil
  | x :: xs => .cons x (JArr.ofList xs)

def JObj.toList : JObj → List (String × JVal)
  | .nil => []
  | .cons k v ps => (k, v) :: JObj.toList ps

def JObj.ofList : List (String × JVal) → JObj
  | [] => .nil
  | (k, v) :: ps => .cons k v (JObj.ofList ps)

def JObj.keys : JObj → List String
  | .nil => []
  | .cons k _ ps => k :: JObj.keys ps

/-- First-match lookup; Python dicts never hold a key twice, so this is dict lookup. -/
def JObj.lookup : JObj → String → Option JVal
  | .nil, _ => none
  | .cons k v ps, key => if k = key then some v else JObj.lookup ps key

/-- Python truthiness of a JSON value (`if not x`). -/
def JVal.falsy : JVal → Bool
  | .null => true
  | .bool b => !b
  | .int n => n = 0
  | .str s => s = ""
  | .arr .nil => true
  | .arr (.cons _ _) => false
  | .obj .nil => true
  | .obj (.cons _ _ _) => false

/-- Python dict assignment `d[k] = v`: overwrite in place if the key exists,
    else append at the end (insertion order). -/
def dictInsert (k : String) (v : JVal) (d : Rec) : Rec :=
  if (d.map Prod.fst).contains k then
    d.map (fun p => if p.1 = k then (k, v) else p)
  else d ++ [(k, v)]

/-- Python `d.update(u)`: assign every pair of `u` into `d` in order. -/
def recUpdate (d : Rec) (u : Rec) : Rec :=
  u.foldl (fun acc p => dictInsert p.1 p.2 acc) d

/-- First-match lookup in a record (Python dict lookup). -/
def recLookup (d : Rec) (k : String) : Option JVal :=
  (d.find? (fun p => p.1 = k)).map Prod.snd

/-- Decimal digits of a natural number, most significant first (fuel-driven so
    that it reduces in the kernel). -/
def natCharsAux : Nat → Nat → List Char
  | 0, _ => []
  | f + 1, n =>
    if n < 10 then [Char.ofNat (48 + n)]
    else natCharsAux f (n / 10) ++ [Char.ofNat (48 + n % 10)]

def natChars (n : Nat) : List Char := natCharsAux (n + 1) n

def natRepr (n : Nat) : String := ⟨natChars n⟩

/-- Python `str` / `repr` of an integer. -/
def intRepr (n : Int) : String :=
  if n < 0 then "-" ++ natRepr n.natAbs else natRepr n.natAbs

/-- Python `str()` of a JSON value, as far as the extraction code observes it.
    (For lists/dicts only the leading repr character matters to the source:
    it never starts with a digit.) -/
def pyStr : JVal → String
  | .null => "None"
  | .bool true => "True"
  | .bool false => "False"
  | .int n => intRepr n
  | .str s => s
  | .arr _ => "[...]"
  | .obj _ => "\x7b...\x7d"

/-- `s.isdigit()` on the decimal-digit fragment: non-empty and all ASCII digits.
    (Python's `str.isdigit` also accepts some non-decimal Unicode digit
    characters; those never parse via `int()` into a different result here and
    are outside the spec's "decimal digits" wording.) -/
def isDigitStr (s : String) : Bool :=
  !s.data.isEmpty && s.data.all (fun c => c.isDigit)

/-- Value of a list of decimal digit characters (most significant first). -/
def digitsVal (cs : List Char) : Nat :=
  cs.foldl (fun a c => a * 10 + (c.toNat - 48)) 0

/-- Python `int(s)` on a string of decimal digits. -/
def pyIntOfDigits (s : String) : Nat := digitsVal s.data

/-- Is `needle` a contiguous substring of `hay` (Python `needle in hay`)? -/
def strContainsSub (hay needle : String) : Bool :=
  hay.data.tails.any (fun t => needle.data.isPrefixOf t)

/-- `str.lower()` on the ASCII fragment (field names; the non-ASCII cases of
    Python's `lower` are irrelevant to the `"time" in name.lower()` test for
    the names this code builds). -/
def strToLower (s : String) : String := ⟨s.data.map Char.toLower⟩

/-- Code-point lexicographic comparison of character lists (how Python
    compares strings). -/
def charListLe : List Char → List Char → Bool
  | [], _ => true
  | _ :: _, [] => false
  | a :: as, b :: bs =>
    if a.toNat < b.toNat then true
    else if b.toNat < a.toNat then false
    else charListLe as bs

/-- Python string `<=`: code-point lexicographic order. -/
def strLeb (a b : String) : Bool := charListLe a.data b.data

def insertSorted (x : String) : List String → List String
  | [] => [x]
  | y :: ys => if strLeb x y then x :: y :: ys else y :: insertSorted x ys

/-- Python `sorted` on a list of strings (insertion sort; stable, and on the
    duplicate-free lists this code sorts, equal to any other sort). -/
def sortStrs (l : List String) : List String := l.foldr insertSorted []

/-- Does the array contain this string (Python `s in list`, `==` comparison)? -/
def JArr.containsStr : JArr → String → Bool
  | .nil, _ => false
  | .cons (.str s) xs, key => s = key || JArr.containsStr xs key
  | .cons _ xs, key => JArr.containsStr xs key

/-- Python `key in v` for a string `key`: dict → key test, list → membership,
    str → substring test, other types → TypeError. -/
def pyIn (key : String) : JVal → Except PyExn Bool
  | .obj ps => .ok (ps.keys.contains key)
  | .arr xs => .ok (xs.containsStr key)
  | .str s => .ok (strContainsSub s key)
  | _ => .error .typeError

/-- Python `v[key]` for a string `key`: dict lookup (KeyError when absent);
    list and str subscription with a string index raise TypeError. -/
def pyGetItem (v : JVal) (key : String) : Except PyExn JVal :=
  match v with
  | .obj ps =>
    match ps.lookup key with
    | some x => .ok x
    | none => .error .keyError
  | _ => .error .typeError

/-- Python `v.get(key, dflt)`: only dicts have `.get` (AttributeError otherwise). -/
def pyDictGet (v : JVal) (key : String) (dflt : JVal) : Except PyExn JVal :=
  match v with
  | .obj ps => .ok ((ps.lookup key).getD dflt)
  | _ => .error .attrError

/-- Python `v == "lit"` for a string literal: equal strings; values of any
    other type compare unequal without raising. -/
def pyEqStr (v : JVal) (lit : String) : Bool :=
  match v with
  | .str s => s = lit
  | _ => false

/-! ### JSON text: serialization (spec-side) and `json.loads` (source-side) -/

/-- Lower-case hex digit character for a value below 16. -/
def hexDigit (n : Nat) : Char :=
  if n < 10 then Char.ofNat (48 + n) else Char.ofNat (87 + n)

/-- JSON string escaping of one character: quote, backslash and control
    characters are escaped, everything else passes through verbatim. -/
def escCharL (c : Char) : List Char :=
  if c = '"' then ['\\', '"']
  else if c = '\\' then ['\\', '\\']
  else if c.toNat < 32 then ['\\', 'u', '0', '0', hexDigit (c.toNat / 16), hexDigit (c.toNat % 16)]
  else [c]

/-- A JSON string literal for `s`. -/
def encStr (s : String) : String := ⟨'"' :: (s.data.flatMap escCharL ++ ['"'])⟩

mutual
/-- Modelled from the spec: `json_encode` — JSON serialization of a value,
    parametrized by the item and key/value separators (`","`/`":"` gives the
    compact form; `", "`/`": "` gives `json.dumps` default formatting). -/
def encV (sc sk : String) : JVal → String
  | .null => "null"
  | .bool true => "true"
  | .bool false => "false"
  | .int n => intRepr n
  | .str s => encStr s
  | .arr xs => "[" ++ encAFirst sc sk xs ++ "]"
  | .obj ps => "\x7b" ++ encOFirst sc sk ps ++ "\x7d"
def encAFirst (sc sk : String) : JArr → String
  | .nil => ""
  | .cons x xs => encV sc sk x ++ encARest sc sk xs
def encARest (sc sk : String) : JArr → String
  | .nil => ""
  | .cons x xs => sc ++ encV sc sk x ++ encARest sc sk xs
def encOFirst (sc sk : String) : JObj → String
  | .nil => ""
  | .cons k v ps => encStr k ++ sk ++ encV sc sk v ++ encORest sc sk ps
def encORest (sc sk : String) : JObj → String
  | .nil => ""
  | .cons k v ps => sc ++ encStr k ++ sk ++ encV sc sk v ++ encORest sc sk ps
end

/-- Compact JSON serialization (the spec's `json_encode`). -/
def jsonEncode (v : JVal) : String := encV "," ":" v

/-- Python `json.dumps(v, ensure_ascii=False)` with its default separators. -/
def pyDumps (v : JVal) : String := encV ", " ": " v

def isWsChar (c : Char) : Bool := c = ' ' || c = '\t' || c = '\n' || c = '\r'

def skipWs (cs : List Char) : List Char := cs.dropWhile isWsChar

/-- Value of one hex digit character (either case), if it is one. -/
def hexVal1 (c : Char) : Option Nat :=
  if '0' ≤ c ∧ c ≤ '9' then some (c.toNat - 48)
  else if 'a' ≤ c ∧ c ≤ 'f' then some (c.toNat - 87)
  else if 'A' ≤ c ∧ c ≤ 'F' then some (c.toNat - 55)
  else none

def hexVal4 (h1 h2 h3 h4 : Char) : Option Nat :=
  match hexVal1 h1, hexVal1 h2, hexVal1 h3, hexVal1 h4 with
  | some a, some b, some c, some d => some (a * 4096 + b * 256 + c * 16 + d)
  | _, _, _, _ => none

/-- Short JSON escapes (`\"`, `\\`, `\/`, `\b`, `\f`, `\n`, `\r`, `\t`). -/
def escDecode (c : Char) : Option Char :=
  if c = '"' then some '"'
  else if c = '\\' then some '\\'
  else if c = '/' then some '/'
  else if c = 'b' then some (Char.ofNat 8)
  else if c = 'f' then some (Char.ofNat 12)
  else if c = 'n' then some (Char.ofNat 10)
  else if c = 'r' then some (Char.ofNat 13)
  else if c = 't' then some (Char.ofNat 9)
  else none

/-- Body of a JSON string literal after the opening quote: the decoded
    characters and the remaining input after the closing quote.  `\uXXXX`
    escapes outside the surrogate range decode to the corresponding character
    (surrogate pairing for astral characters is not modelled; the serializer
    side never emits such escapes). -/
def parseStrAux : List Char → Option (List Char × List Char)
  | [] => none
  | c :: rest =>
    if c = '"' then some ([], rest)
    else if c = '\\' then
      match rest with
      | [] => none
      | e :: rest2 =>
        if e = 'u' then
          match rest2 with
          | h1 :: h2 :: h3 :: h4 :: rest3 =>
            match hexVal4 h1 h2 h3 h4 with
            | some n =>
              if n.isValidChar then
                match parseStrAux rest3 with
                | some (cs, r) => some (Char.ofNat n :: cs, r)
                | none => none
              else none
            | none => none
          | _ => none
        else
          match escDecode e with
          | some d =>
            match parseStrAux rest2 with
            | some (cs, r) => some (d :: cs, r)
            | none => none
          | none => none
    else
      match parseStrAux rest with
      | some (cs, r) => some (c :: cs, r)
      | none => none

/-- An unsigned integer literal; a following `.`/`e`/`E` (a float literal)
    is outside the model and rejected. -/
def parseNatNum (cs : List Char) : Option (Nat × List Char) :=
  let ds := cs.takeWhile Char.isDigit
  let rest := cs.dropWhile Char.isDigit
  if ds.isEmpty then none
  else
    match rest with
    | c :: _ => if c = '.' ∨ c = 'e' ∨ c = 'E' then none else some (digitsVal ds, rest)
    | [] => some (digitsVal ds, [])

/-- Python builds a dict from parsed members by repeated assignment:
    first occurrence keeps its position, a repeated key keeps the last value. -/
def objFromPairs (ps : List (String × JVal)) : JObj :=
  JObj.ofList (ps.foldl (fun d p => dictInsert p.1 p.2 d) [])

mutual
/-- One JSON value (fuel-driven recursive descent over the remaining input). -/
def parseVal : Nat → List Char → Option (JVal × List Char)
  | 0, _ => none
  | f + 1, input =>
    match skipWs input with
    | [] => none
    | c :: rest =>
      if c = Char.ofNat 123 then
        match skipWs rest with
        | c2 :: r2 =>
          if c2 = Char.ofNat 125 then some (.obj .nil, r2)
          else
            match parseMembers f (c2 :: r2) with
            | some (ps, r) => some (.obj (objFromPairs ps), r)
            | none => none
        | [] => none
      else if c = '[' then
        match skipWs rest with
        | c2 :: r2 =>
          if c2 = ']' then some (.arr .nil, r2)
          else
            match parseElems f (c2 :: r2) with
            | some (xs, r) => some (.arr (JArr.ofList xs), r)
            | none => none
        | [] => none
      else if c = '"' then
        match parseStrAux rest with
        | some (cs, r) => some (.str ⟨cs⟩, r)
        | none => none
      else if c = 't' then
        match rest with
        | 'r' :: 'u' :: 'e' :: r => some (.bool true, r)
        | _ => none
      else if c = 'f' then
        match rest with
        | 'a' :: 'l' :: 's' :: 'e' :: r => some (.bool false, r)
        | _ => none
      else if c = 'n' then
        match rest with
        | 'u' :: 'l' :: 'l' :: r => some (.null, r)
        | _ => none
      else if c = '-' then
        match parseNatNum rest with
        | some (m, r) => some (.int (-(m : Int)), r)
        | none => none
      else if c.isDigit then
        match parseNatNum (c :: rest) with
        | some (m, r) => some (.int (m : Int), r)
        | none => none
      else none
/-- The elements of a non-empty JSON array, up to and including `]`. -/
def parseElems : Nat → List Char → Option (List JVal × List Char)
  | 0, _ => none
  | f + 1, input =>
    match parseVal f input with
    | some (v, r1) =>
      match skipWs r1 with
      | ',' :: r2 =>
        match parseElems f r2 with
        | some (xs, r) => some (v :: xs, r)
        | none => none
      | ']' :: r2 => some ([v], r2)
      | _ => none
    | none => none
/-- The members of a non-empty JSON object, up to and including the brace. -/
def parseMembers : Nat → List Char → Option (List (String × JVal) × List Char)
  | 0, _ => none
  | f + 1, input =>
    match skipWs input with
    | c :: rest =>
      if c = '"' then
        match parseStrAux rest with
        | some (kcs, r1) =>
          match skipWs r1 with
          | ':' :: r2 =>
            match parseVal f r2 with
            | some (v, r3) =>
              match skipWs r3 with
              | ',' :: r4 =>
                match parseMembers f r4 with
                | some (ps, r) => some ((⟨kcs⟩, v) :: ps, r)
                | none => none
              | c5 :: r4 =>
                if c5 = Char.ofNat 125 then some ([(⟨kcs⟩, v)], r4) else none
              | [] => none
            | none => none
          | _ => none
        | none => none
      else none
    | [] => none
end

/-- Python `json.loads` (on the integer fragment; float and `NaN`/`Infinity`
    literals are outside the model and fail).  Leading and trailing whitespace
    is allowed; anything else trailing is an error. -/
def jsonLoads (s : String) : Option JVal :=
  match parseVal (s.data.length + 1) s.data with
  | some (v, rest) => if (skipWs rest).isEmpty then some v else none
  | none => none

/-! ### base64 and character encodings (source-side library calls) -/

/-- The base64 alphabet character at index `i < 64`. -/
def b64CharOfIdx (i : Nat) : Char :=
  if i < 26 then Char.ofNat (65 + i)
  else if i < 52 then Char.ofNat (97 + (i - 26))
  else if i < 62 then Char.ofNat (48 + (i - 52))
  else if i = 62 then '+'
  else '/'

/-- Index of a base64 alphabet character, if it is one. -/
def b64IdxOfChar (c : Char) : Option Nat :=
  if 'A' ≤ c ∧ c ≤ 'Z' then some (c.toNat - 65)
  else if 'a' ≤ c ∧ c ≤ 'z' then some (c.toNat - 71)
  else if '0' ≤ c ∧ c ≤ '9' then some (c.toNat + 4)
  else if c = '+' then some 62
  else if c = '/' then some 63
  else none

/-- base64 of a byte sequence, three bytes per four characters, `=`-padded. -/
def b64EncodeChunks : List Nat → List Char
  | [] => []
  | [b1] => [b64CharOfIdx (b1 / 4), b64CharOfIdx (b1 % 4 * 16), '=', '=']
  | [b1, b2] =>
    [b64CharOfIdx (b1 / 4), b64CharOfIdx (b1 % 4 * 16 + b2 / 16),
     b64CharOfIdx (b2 % 16 * 4), '=']
  | b1 :: b2 :: b3 :: rest =>
    b64CharOfIdx (b1 / 4) :: b64CharOfIdx (b1 % 4 * 16 + b2 / 16) ::
    b64CharOfIdx (b2 % 16 * 4 + b3 / 64) :: b64CharOfIdx (b3 % 64) ::
    b64EncodeChunks rest

/-- Modelled from the spec: `base64_encode` (Python `base64.b64encode`). -/
def base64Encode (bs : List Nat) : String := ⟨b64EncodeChunks bs⟩

/-- Bytes from a sequence of 6-bit groups; a trailing group of one is invalid. -/
def b64DecodeChunks : List Nat → Option (List Nat)
  | [] => some []
  | [_] => none
  | [i1, i2] => some [i1 * 4 + i2 / 16]
  | [i1, i2, i3] => some [i1 * 4 + i2 / 16, i2 % 16 * 16 + i3 / 4]
  | i1 :: i2 :: i3 :: i4 :: rest =>
    match b64DecodeChunks rest with
    | some bs => some ((i1 * 4 + i2 / 16) :: (i2 % 16 * 16 + i3 / 4) :: (i3 % 4 * 64 + i4) :: bs)
    | none => none

/-- Python `base64.b64decode` on a str (default non-strict mode): the text must
    be ASCII, characters outside the alphabet are ignored, `=` ends the data,
    and a leftover group of one 6-bit unit is an error. -/
def base64Decode (s : String) : Option (List Nat) :=
  if s.data.all (fun c => c.toNat < 128) then
    let idxs := (s.data.takeWhile (fun c => c ≠ '=')).filterMap b64IdxOfChar
    if idxs.length % 4 = 1 then none else b64DecodeChunks idxs
  else none

/-- UTF-8 bytes of one character. -/
def utf8EncodeChar (c : Char) : List Nat :=
  let n := c.toNat
  if n < 128 then [n]
  else if n < 2048 then [192 + n / 64, 128 + n % 64]
  else if n < 65536 then [224 + n / 4096, 128 + n / 64 % 64, 128 + n % 64]
  else [240 + n / 262144, 128 + n / 4096 % 64, 128 + n / 64 % 64, 128 + n % 64]

/-- Modelled from the spec: `utf8_encode` (Python `str.encode("utf-8")`). -/
def utf8Encode (s : String) : List Nat := s.data.flatMap utf8EncodeChar

/-- Is this byte a UTF-8 continuation byte? -/
def isContByte (b : Nat) : Bool := 128 ≤ b && b < 192

/-- One character from the head of a UTF-8 byte sequence (strict: overlong
    forms, surrogates and out-of-range values are rejected). -/
def utf8DecodeOne : List Nat → Option (Char × List Nat)
  | [] => none
  | b :: rest =>
    if b < 128 then
      if Nat.isValidChar b then some (Char.ofNat b, rest) else none
    else if b < 192 then none
    else if b < 224 then
      match rest with
      | b2 :: r =>
        if isContByte b2 then
          let n := (b - 192) * 64 + (b2 - 128)
          if 128 ≤ n ∧ n.isValidChar then some (Char.ofNat n, r) else none
        else none
      | [] => none
    else if b < 240 then
      match rest with
      | b2 :: b3 :: r =>
        if isContByte b2 && isContByte b3 then
          let n := (b - 224) * 4096 + (b2 - 128) * 64 + (b3 - 128)
          if 2048 ≤ n ∧ n.isValidChar then some (Char.ofNat n, r) else none
        else none
      | _ => none
    else if b < 248 then
      match rest with
      | b2 :: b3 :: b4 :: r =>
        if isContByte b2 && isContByte b3 && isContByte b4 then
          let n := (b - 240) * 262144 + (b2 - 128) * 4096 + (b3 - 128) * 64 + (b4 - 128)
          if 65536 ≤ n ∧ n.isValidChar then some (Char.ofNat n, r) else none
        else none
      | _ => none
    else none

def utf8DecodeAux : Nat → List Nat → Option (List Char)
  | _, [] => some []
  | 0, _ :: _ => none
  | f + 1, bs =>
    match utf8DecodeOne bs with
    | some (c, rest) =>
      match utf8DecodeAux f rest with
      | some cs => some (c :: cs)
      | none => none
    | none => none

/-- Python `bytes.decode("utf-8")` (strict). -/
def utf8Decode (bs : List Nat) : Option String :=
  match utf8DecodeAux bs.length bs with
  | some cs => some ⟨cs⟩
  | none => none

/-- Python `bytes.decode("latin1")`: total on bytes. -/
def latin1Decode (bs : List Nat) : Option String :=
  if bs.all (fun b => b < 256) then some ⟨bs.map Char.ofNat⟩ else none

/-- Windows-1252 value of a byte: the 0x80–0x9F block is remapped, five of its
    bytes are undefined, the rest coincides with latin1. -/
def cp1252Byte (b : Nat) : Option Nat :=
  if b < 128 ∨ (160 ≤ b ∧ b < 256) then some b
  else if b = 128 then some 8364
  else if b = 130 then some 8218
  else if b = 131 then some 402
  else if b = 132 then some 8222
  else if b = 133 then some 8230
  else if b = 134 then some 8224
  else if b = 135 then some 8225
  else if b = 136 then some 710
  else if b = 137 then some 8240
  else if b = 138 then some 352
  else if b = 139 then some 8249
  else if b = 140 then some 338
  else if b = 142 then some 381
  else if b = 145 then some 8216
  else if b = 146 then some 8217
  else if b = 147 then some 8220
  else if b = 148 then some 8221
  else if b = 149 then some 8226
  else if b = 150 then some 8211
  else if b = 151 then some 8212
  else if b = 152 then some 732
  else if b = 153 then some 8482
  else if b = 154 then some 353
  else if b = 155 then some 8250
  else if b = 156 then some 339
  else if b = 158 then some 382
  else if b = 159 then some 376
  else none

/-- Python `bytes.decode("cp1252")`. -/
def cp1252Decode (bs : List Nat) : Option String :=
  match bs.mapM cp1252Byte with
  | some ns => some ⟨ns.map Char.ofNat⟩
  | none => none

/-- Python `bytes.decode("ascii")` (strict). -/
def asciiDecode (bs : List Nat) : Option String :=
  if bs.all (fun b => b < 128) then some ⟨bs.map Char.ofNat⟩ else none

/-- The source's encoding loop over `['utf-8', 'latin1', 'cp1252', 'ascii']`:
    for each encoding that decodes, attempt a JSON parse; first success wins. -/
def tryEncodings (bs : List Nat) : Option JVal :=
  match (utf8Decode bs).bind jsonLoads with
  | some v => some v
  | none =>
    match (latin1Decode bs).bind jsonLoads with
    | some v => some v
    | none =>
      match (cp1252Decode bs).bind jsonLoads with
      | some v => some v
      | none => (asciiDecode bs).bind jsonLoads

/-- `decode_content` (src/app.py): empty/absent payload gives no value; a
    string is first parsed as JSON directly, then via base64 followed by the
    encoding loop; non-string, non-bytes payloads give no value.  (The raw
    `bytes` branch of the source is unreachable here: JSON values contain no
    bytes objects.) -/
def decode_content (content : JVal) : Option JVal :=
  if content.falsy then none
  else
    match content with
    | .str s =>
      match jsonLoads s with
      | some v => some v
      | none =>
        match base64Decode s with
        | some bs => tryEncodings bs
        | none => none
    | _ => none

/-! ### Field flattener (`extract_simple_fields`) -/

/-- The candidate lookup of the `to_str` helper: `k in item and
    isinstance(item[k], (str, int, float))` — note Python `bool` is an
    instance of `int`, so boolean values qualify too; `None` does not. -/
def swCandidate (ps : JObj) (k : String) : Option JVal :=
  match ps.lookup k with
  | some (.str s) => some (.str s)
  | some (.int n) => some (.int n)
  | some (.bool b) => some (.bool b)
  | _ => none

/-- The `to_str` helper of the `search_world` list handling: scalars via
    `str()` with `None` as empty string, dicts via the first of
    `word`/`name`/`title` holding a str/int/bool value, else compact-ish
    `json.dumps`; anything else via `str()`. -/
def swToStr : JVal → String
  | .null => ""
  | .str s => s
  | .int n => intRepr n
  | .bool b => pyStr (.bool b)
  | .obj ps =>
    match swCandidate ps "word" with
    | some v => pyStr v
    | none =>
      match swCandidate ps "name" with
      | some v => pyStr v
      | none =>
        match swCandidate ps "title" with
        | some v => pyStr v
        | none => pyDumps (.obj ps)
  | .arr xs => pyStr (.arr xs)

/-- `"、".join(to_str(x) for x in value) if value else ""`; the join of an
    empty list is the empty string either way. -/
def swJoin (xs : JArr) : String :=
  String.intercalate "、" (xs.toList.map swToStr)

/-- `f"{prefix}_{key}" if prefix else key`. -/
def derivedKey (pre k : String) : String :=
  if pre = "" then k else pre ++ "_" ++ k

/-- The value one (key, value) pair of the input object contributes to the
    flat record, if any: scalars verbatim, empty dict as `""`, non-empty dict
    dropped, lists per the `search_world` special case.  (The source's `try`
    around the `search_world` conversion cannot fire in the model: `to_str`
    and `json.dumps` are total on JSON values.) -/
def pairValue (k : String) (value : JVal) : Option JVal :=
  match value with
  | .str s => some (.str s)
  | .int n => some (.int n)
  | .bool b => some (.bool b)
  | .null => some .null
  | .obj .nil => some (.str "")
  | .obj (.cons _ _ _) => none
  | .arr xs =>
    if k = "search_world" then some (.str (swJoin xs))
    else
      match xs with
      | .nil => some (.str "")
      | .cons _ _ => none

/-- What one pair contributes under a prefix: the derived field name and the
    contributed value. -/
def pairContribution (pre k : String) (value : JVal) : Option (String × JVal) :=
  (pairValue k value).map (fun w => (derivedKey pre k, w))

def esfLoop (pre : String) : JObj → Rec → Rec
  | .nil, acc => acc
  | .cons k v ps, acc =>
    match pairContribution pre k v with
    | some (k', v') => esfLoop pre ps (dictInsert k' v' acc)
    | none => esfLoop pre ps acc

/-- `extract_simple_fields` (src/app.py): iterate the object's pairs in order,
    assigning each contribution into an initially empty dict; non-dict input
    gives an empty record. -/
def extract_simple_fields (obj : JVal) (pre : String) : Rec :=
  match obj with
  | .obj ps => esfLoop pre ps []
  | _ => []

/-! ### Post extractor (`extract_posts`) -/

def epLoop : JArr → List Rec → List Rec
  | .nil, acc => acc
  | .cons item rest, acc =>
    match item with
    | .obj ips =>
      let pd0 : Rec := []
      let pd1 :=
        match ips.lookup "aweme_info" with
        | some (.obj aps) => recUpdate pd0 (extract_simple_fields (.obj aps) "aweme")
        | _ => pd0
      let pd2 :=
        match ips.lookup "author_info" with
        | some (.obj aps) => recUpdate pd1 (extract_simple_fields (.obj aps) "author")
        | _ => pd1
      if pd2.isEmpty then epLoop rest acc else epLoop rest (acc ++ [pd2])
    | _ => epLoop rest acc

/-- `extract_posts` (src/app.py): validate payload → `data` → `list`, then
    flatten `aweme_info`/`author_info` of each dict item; every exception the
    body can raise (e.g. `'list' in data_section` or `data_section['list']` on
    a non-dict `data` value) is caught by the function's own `try`, which
    returns the posts accumulated so far — the empty list, since those raises
    happen before any accumulation. -/
def extract_posts (data : JVal) : List Rec :=
  match data with
  | .obj ps =>
    match ps.lookup "data" with
    | none => []
    | some dsec =>
      match pyIn "list" dsec with
      | .error _ => []
      | .ok false => []
      | .ok true =>
        match pyGetItem dsec "list" with
        | .error _ => []
        | .ok il =>
          match il with
          | .arr items => epLoop items []
          | _ => []
  | _ => []

/-! ### Timestamp normalization (the walker's per-post rewrite) -/

/-- Gregorian civil date for a day count from 1970-01-01 (nonnegative days). -/
def civilFromDays (z0 : Nat) : Nat × Nat × Nat :=
  let z := z0 + 719468
  let era := z / 146097
  let doe := z % 146097
  let yoe := (doe - doe / 1460 + doe / 36524 - doe / 146096) / 365
  let y := yoe + era * 400
  let doy := doe - (365 * yoe + yoe / 4 - yoe / 100)
  let mp := (5 * doy + 2) / 153
  let d := doy - (153 * mp + 2) / 5 + 1
  let m := if mp < 10 then mp + 3 else mp - 9
  (if m ≤ 2 then y + 1 else y, m, d)

def pad2 (n : Nat) : String :=
  if n < 10 then "0" ++ natRepr n else natRepr n

/-- `datetime.fromtimestamp(t).strftime('%Y-%m-%d %H:%M:%S')` for an in-range
    nonnegative `t`, with the local timezone modelled as UTC. -/
def formatTs (t : Nat) : String :=
  let days := t / 86400
  let secs := t % 86400
  let c := civilFromDays days
  natRepr c.1 ++ "-" ++ pad2 c.2.1 ++ "-" ++ pad2 c.2.2 ++ " " ++
    pad2 (secs / 3600) ++ ":" ++ pad2 (secs % 3600 / 60) ++ ":" ++ pad2 (secs % 60)

/-- Outcome of `datetime.fromtimestamp`: formatted, or an exception the
    normalization's `except (ValueError, TypeError, OSError)` catches, or an
    OverflowError it does not catch. -/
inductive TsRes where
  | ok (s : String)
  | caught
  | overflow
  deriving DecidableEq, Repr

/-- CPython `datetime.fromtimestamp(t)` on 64-bit Linux for a nonnegative
    integer `t` (the only values the digit guard lets through): a value that
    does not fit the platform `time_t` (`t ≥ 2^63`) raises OverflowError; a
    fitting value past `datetime.max` (9999-12-31 23:59:59 = 253402300799,
    local time modelled as UTC) raises OSError or ValueError, both caught;
    otherwise the formatted string results. -/
def pyFromtimestampStr (t : Nat) : TsRes :=
  if t ≥ 2 ^ 63 then .overflow
  else if t > 253402300799 then .caught
  else .ok (formatTs t)

/-- One field of the timestamp-normalization loop (src/app.py lines 229-235):
    a field whose lowercased name contains `time`, with a truthy value whose
    `str()` is all digits, is converted via `int` + `fromtimestamp`;
    ValueError/TypeError/OSError leave the value unchanged; an OverflowError
    escapes the loop (`.error ()`). -/
def normalizeField (k : String) (v : JVal) : Except Unit JVal :=
  if strContainsSub (strToLower k) "time" && !v.falsy && isDigitStr (pyStr v) then
    match pyFromtimestampStr (pyIntOfDigits (pyStr v)) with
    | .ok s => .ok (.str s)
    | .caught => .ok v
    | .overflow => .error ()
  else .ok v

/-- The normalization loop over a record's fields in order; the first escaping
    OverflowError aborts it. -/
def normalizeRec : Rec → Except Unit Rec
  | [] => .ok []
  | (k, v) :: rest =>
    match normalizeField k v with
    | .ok v' =>
      match normalizeRec rest with
      | .ok r => .ok ((k, v') :: r)
      | .error e => .error e
    | .error e => .error e

/-! ### HAR walker (`extract_data_from_har`) -/

/-- `sorted(set(post.keys()))` — lexicographic string order. -/
def sortedKeys (r : Rec) : List String :=
  sortStrs (r.map Prod.fst).dedup

/-- The walker's per-post copy: `post_data[field] = post.get(field, '')` for
    each field of the sorted key set, assigned into an empty dict. -/
def sortedCopy (r : Rec) : Rec :=
  (sortedKeys r).foldl (fun d k => dictInsert k ((recLookup r k).getD (.str "")) d) []

/-- What one HAR entry contributes: appended records, counted posts, and
    whether the entry's `try` caught an escaping exception (aborting the
    remainder of the entry). -/
structure EntryRes where
  recs : List Rec
  cnt : Nat
  aborted : Bool

/-- The walker's loop over one entry's extracted posts: the counter is
    incremented before the record is built, so an OverflowError escaping the
    normalization loses the current record but keeps its count. -/
def postsLoop : List Rec → List Rec → Nat → EntryRes
  | [], acc, n => ⟨acc, n, false⟩
  | post :: rest, acc, n =>
    match normalizeRec (sortedCopy post) with
    | .ok pd => postsLoop rest (acc ++ [pd]) (n + 1)
    | .error _ => ⟨acc, n + 1, true⟩

/-- One iteration of the walker's entry loop (the body of the per-entry
    `try`): guard failures skip the entry normally; any raising operation
    makes the entry `aborted` (caught by `except Exception: continue`).
    `entry['response']` is evaluated twice in the source with the same
    result; the model evaluates it once. -/
def processEntry (entry : JVal) : EntryRes :=
  match pyIn "response" entry with
  | .error _ => ⟨[], 0, true⟩
  | .ok false => ⟨[], 0, false⟩
  | .ok true =>
    match pyGetItem entry "response" with
    | .error _ => ⟨[], 0, true⟩
    | .ok resp =>
      match pyIn "content" resp with
      | .error _ => ⟨[], 0, true⟩
      | .ok false => ⟨[], 0, false⟩
      | .ok true =>
        match pyGetItem resp "content" with
        | .error _ => ⟨[], 0, true⟩
        | .ok content =>
          match pyDictGet content "text" .null with
          | .error _ => ⟨[], 0, true⟩
          | .ok text =>
            if text.falsy then ⟨[], 0, false⟩
            else
              match pyDictGet content "mimeType" (.str "unknown") with
              | .error _ => ⟨[], 0, true⟩
              | .ok mime =>
                if pyEqStr mime "image/jpg" then ⟨[], 0, false⟩
                else
                  match pyDictGet content "text" (.str "") with
                  | .error _ => ⟨[], 0, true⟩
                  | .ok text2 =>
                    match decode_content text2 with
                    | none => ⟨[], 0, false⟩
                    | some data =>
                      if data.falsy then ⟨[], 0, false⟩
                      else postsLoop (extract_posts data) [] 0

/-- The posts an entry feeds to its loop: the same guard cascade as
    `processEntry`, returning `extract_posts` of the decoded payload when the
    loop is reached and the empty list on every earlier exit (guard skip or
    raise).  Used to state when an entry can abort between counting a post
    and appending its record. -/
def entryPosts (entry : JVal) : List Rec :=
  match pyIn "response" entry with
  | .error _ => []
  | .ok false => []
  | .ok true =>
    match pyGetItem entry "response" with
    | .error _ => []
    | .ok resp =>
      match pyIn "content" resp with
      | .error _ => []
      | .ok false => []
      | .ok true =>
        match pyGetItem resp "content" with
        | .error _ => []
        | .ok content =>
          match pyDictGet content "text" .null with
          | .error _ => []
          | .ok text =>
            if text.falsy then []
            else
              match pyDictGet content "mimeType" (.str "unknown") with
              | .error _ => []
              | .ok mime =>
                if pyEqStr mime "image/jpg" then []
                else
                  match pyDictGet content "text" (.str "") with
                  | .error _ => []
                  | .ok text2 =>
                    match decode_content text2 with
                    | none => []
                    | some data =>
                      if data.falsy then [] else extract_posts data

/-- Python iteration over the `entries` value: lists yield elements, dicts
    yield their keys, strings yield one-character strings, anything else
    raises TypeError at the `for`. -/
def pyIter : JVal → Except PyExn (List JVal)
  | .arr xs => .ok xs.toList
  | .obj ps => .ok (ps.keys.map JVal.str)
  | .str s => .ok (s.data.map (fun c => .str ⟨[c]⟩))
  | _ => .error .typeError

/-- The guard and `entries` access of `extract_data_from_har`:
    `if not har_data or 'log' not in har_data or 'entries' not in
    har_data['log']` followed by `har_data['log']['entries']` and the `for`.
    `.ok none` means the guard returned the empty result; `.error` means one
    of these unguarded operations raised. -/
def harEntries (har : JVal) : Except PyExn (Option (List JVal)) :=
  if har.falsy then .ok none
  else
    match pyIn "log" har with
    | .error e => .error e
    | .ok false => .ok none
    | .ok true =>
      match pyGetItem har "log" with
      | .error e => .error e
      | .ok logv =>
        match pyIn "entries" logv with
        | .error e => .error e
        | .ok false => .ok none
        | .ok true =>
          match pyGetItem logv "entries" with
          | .error e => .error e
          | .ok ev =>
            match pyIter ev with
            | .error e => .error e
            | .ok es => .ok (some es)

/-- The walker's accumulation over the entries. -/
def foldEntries (es : List JVal) : List Rec × Nat :=
  es.foldl (fun acc e =>
    let r := processEntry e
    (acc.1 ++ r.recs, acc.2 + r.cnt)) ([], 0)

/-- `extract_data_from_har` (src/app.py): the `config` parameter is an unused
    placeholder in the source and in the model. -/
def extract_data_from_har (har : JVal) (_cfg : JVal) : Except PyExn (List Rec × Nat) :=
  match harEntries har with
  | .error e => .error e
  | .ok none => .ok ([], 0)
  | .ok (some es) => .ok (foldEntries es)

/-! ### CSV export -/

/-- A CSV field under QUOTE_ALL: quoted, embedded quotes doubled. -/
def csvEsc (s : String) : String :=
  ⟨s.data.flatMap (fun c => if c = '"' then ['"', '"'] else [c])⟩

def csvField (s : String) : String := "\"" ++ csvEsc s ++ "\""

/-- The csv writer's text for a cell value: `None` becomes the empty string,
    everything else goes through `str()`. -/
def csvRender : JVal → String
  | .null => ""
  | v => pyStr v

/-- One CSV row (QUOTE_ALL, default `\r\n` line terminator). -/
def csvRow (fields : List String) : String :=
  String.intercalate "," (fields.map csvField) ++ "\r\n"

/-- The source's `all_fields = set(); for r in rows: all_fields.update(...)`:
    a duplicate-free accumulation of every row's keys. -/
def keyUnion (rows : List Rec) : List String :=
  rows.foldl (fun acc r =>
    (r.map Prod.fst).foldl (fun a k => if a.contains k then a else a ++ [k]) acc) []

/-- `field_order = sorted(list(all_fields))`. -/
def sortedFieldUnion (rows : List Rec) : List String :=
  sortStrs (keyUnion rows)

/-- `to_csv_bytes` (src/app.py): empty input gives the empty byte string;
    otherwise a UTF-8-SIG byte string (BOM first) with the sorted key union
    as header and one QUOTE_ALL row per record, absent fields supplied as the
    DictWriter's restval `None` (rendered empty).  Bytes are `List Nat`. -/
def to_csv_bytes (rows : List Rec) : List Nat :=
  if rows.isEmpty then []
  else
    let fieldOrder := sortedFieldUnion rows
    utf8Encode ("﻿" ++ csvRow fieldOrder ++
      String.join (rows.map (fun r =>
        csvRow (fieldOrder.map (fun f => csvRender ((recLookup r f).getD .null))))))

/-- The fixed selected-column mapping (source field name, display name). -/
def SELECTED_HEADERS : List (String × String) := [
  ("author_author_id", "ID"),
  ("author_aweme_count", "视频个数"),
  ("author_comment_avg", "平均评论"),
  ("author_digg_avg", "平均点赞"),
  ("author_follower_count", "粉丝个数"),
  ("author_nickname", "name"),
  ("author_share_avg", "平均分享"),
  ("author_unique_id", "抖音号"),
  ("aweme_aweme_cover", "视频封面"),
  ("aweme_aweme_create_time", "创建时间"),
  ("aweme_aweme_title", "标题"),
  ("aweme_aweme_url", "url"),
  ("aweme_collect_count", "收藏"),
  ("aweme_comment_count", "评论"),
  ("aweme_digg_count", "点赞"),
  ("aweme_share_count", "分享"),
  ("aweme_play_count_v2", "预估播放"),
  ("aweme_sentence", "相关关键检索"),
  ("aweme_search_world", "搜索关键词")]

/-- `extract_selected_columns` (src/app.py): project and rename each row by
    the fixed mapping, missing source fields defaulting to `""`. -/
def extract_selected_columns (rows : List Rec) : List Rec :=
  rows.map (fun row =>
    SELECTED_HEADERS.foldl (fun nr p => dictInsert p.2 ((recLookup row p.1).getD (.str "")) nr) [])

/-- `download_selected_csv` (src/app.py): the filename argument is unused. -/
def download_selected_csv (rows : List Rec) (_fname : String) : List Nat :=
  let selected := extract_selected_columns rows
  if selected.isEmpty then []
  else
    let fieldnames := SELECTED_HEADERS.map Prod.snd
    utf8Encode ("﻿" ++ csvRow fieldnames ++
      String.join (selected.map (fun r =>
        csvRow (fieldnames.map (fun f => csvRender ((recLookup r f).getD .null))))))

/-! ### Predicates and concrete inputs used by the claims -/

/-- Is the value a scalar (string, number, boolean, or null)? -/
def JVal.isScalar : JVal → Bool
  | .str _ => true
  | .int _ => true
  | .bool _ => true
  | .null => true
  | _ => false

mutual
/-- Well-formed as a value a Python `json` round trip can produce: every
    object's keys are pairwise distinct. -/
def wfV : JVal → Bool
  | .null => true
  | .bool _ => true
  | .int _ => true
  | .str _ => true
  | .arr xs => wfA xs
  | .obj ps => decide ps.keys.Nodup && wfO ps
def wfA : JArr → Bool
  | .nil => true
  | .cons x xs => wfV x && wfA xs
def wfO : JObj → Bool
  | .nil => true
  | .cons _ v ps => wfV v && wfO ps
end

/-- The envelope shape `extract_posts` accepts: an object whose `data` member
    is an object whose `list` member is an array. -/
def GoodEnvelope (data : JVal) : Prop :=
  ∃ ps dps items, data = .obj ps ∧ ps.lookup "data" = some (.obj dps) ∧
    dps.lookup "list" = some (.arr items)

/-- The entry sequence the walker iterates, empty when the guard or an
    exception prevents the loop from running. -/
def harEntriesList (har : JVal) : List JVal :=
  match harEntries har with
  | .ok (some es) => es
  | _ => []

/-- The spec-side header: the lexicographically sorted, duplicate-free union
    of all field names across all records. -/
def lexSortedKeyUnion (rows : List Rec) : List String :=
  sortStrs ((rows.flatMap (fun r => r.map Prod.fst)).dedup)

/-- What may legitimately follow a serialized JSON value inside a larger
    serialized term: nothing, or a separator/closer. -/
def SepAfter (rest : List Char) : Prop :=
  rest = [] ∨ ∃ c r, rest = c :: r ∧ (c = ',' ∨ c = ']' ∨ c = Char.ofNat 125)

/-- The 6-bit groups the base64 encoding of a byte sequence carries
    (padding excluded); used to state the decode/encode round trip. -/
def b64Idxs : List Nat → List Nat
  | [] => []
  | [b1] => [b1 / 4, b1 % 4 * 16]
  | [b1, b2] => [b1 / 4, b1 % 4 * 16 + b2 / 16, b2 % 16 * 4]
  | b1 :: b2 :: b3 :: rest =>
    b1 / 4 :: (b1 % 4 * 16 + b2 / 16) :: (b2 % 16 * 4 + b3 / 64) :: b3 % 64 ::
      b64Idxs rest

/-- The spec-side cell text: the record's field rendered, absent fields as
    the empty string. -/
def specCell (r : Rec) (f : String) : String :=
  match recLookup r f with
  | some v => csvRender v
  | none => ""

/-- A HAR document whose `log` value is the string `"entries"`: the membership
    guard `'entries' not in har_data['log']` is a substring test on a string
    and passes, and the subsequent `har_data['log']['entries']` subscription
    raises TypeError. -/
def harLogStr : JVal := .obj (.cons "log" (.str "entries") .nil)

/-- Serialized envelope with one post whose `create_time` is `2^63`: in range
    for the digit guard, out of range for the platform `time_t`. -/
def overflowText : String :=
  "\x7b\"data\":\x7b\"list\":[\x7b\"aweme_info\":\x7b\"create_time\":\"9223372036854775808\"\x7d\x7d]\x7d\x7d"

/-- A HAR document with a single JSON entry holding that overflowing post. -/
def harOverflow : JVal :=
  .obj (.cons "log" (.obj (.cons "entries" (.arr (.cons
    (.obj (.cons "response" (.obj (.cons "content" (.obj
      (.cons "text" (.str overflowText)
      (.cons "mimeType" (.str "application/json") .nil))) .nil)) .nil))
    .nil)) .nil)) .nil)

/-- Serialized envelope with one well-formed post. -/
def onePostText : String :=
  "\x7b\"data\":\x7b\"list\":[\x7b\"aweme_info\":\x7b\"aweme_id\":\"1\",\"create_time\":\"1700000000\"\x7d,\"author_info\":\x7b\"nickname\":\"Alice\"\x7d\x7d]\x7d\x7d"

/-- A HAR entry whose `mimeType` is `image/jpg` but whose `text` decodes to a
    valid envelope containing a post. -/
def entryJpgWithPost : JVal :=
  .obj (.cons "response" (.obj (.cons "content" (.obj
    (.cons "text" (.str onePostText)
    (.cons "mimeType" (.str "image/jpg") .nil))) .nil)) .nil)

/-- A HAR document with one well-formed JSON entry (one post, no aborts). -/
def harOnePost : JVal :=
  .obj (.cons "log" (.obj (.cons "entries" (.arr (.cons
    (.obj (.cons "response" (.obj (.cons "content" (.obj
      (.cons "text" (.str onePostText)
      (.cons "mimeType" (.str "application/json") .nil))) .nil)) .nil))
    .nil)) .nil)) .nil)

/-- The characters a serialized JSON value can start with. -/
def StartChar (c : Char) : Prop :=
  c = Char.ofNat 123 ∨ c = '[' ∨ c = '"' ∨ c = 't' ∨ c = 'f' ∨ c = 'n' ∨
    c = '-' ∨ c.isDigit = true

/-! ## Theorems -/

/-! ### Record and object basics -/

theorem recLookup_nil (k : String) : recLookup [] k = none := rfl

theorem recLookup_cons (k : String) (v : JVal) (d : Rec) (key : String) :
    recLookup ((k, v) :: d) key = if k = key then some v else recLookup d key := by
  simp only [recLookup, List.find?_cons]
  by_cases h : k = key <;> simp [h]

theorem dictInsert_fresh (k : String) (v : JVal) (d : Rec) (h : k ∉ d.map Prod.fst) :
    dictInsert k v d = d ++ [(k, v)] := by
  simp [dictInsert, List.contains, List.elem_eq_mem, h]

theorem jobj_contains_eq : ∀ (ps : JObj) (k : String),
    ps.keys.contains k = (ps.lookup k).isSome
  | .nil, _ => rfl
  | .cons k2 v ps, k => by
    have ih := jobj_contains_eq ps k
    simp only [JObj.keys, JObj.lookup, List.contains, List.elem_eq_mem] at *
    by_cases h : k2 = k
    · subst h; simp
    · simp [List.mem_cons, Ne.symm h, h, ih]

theorem jobj_mem_keys_iff (ps : JObj) (k : String) :
    k ∈ ps.keys ↔ (ps.lookup k).isSome := by
  have h := jobj_contains_eq ps k
  simp only [List.contains, List.elem_eq_mem] at h
  constructor
  · intro hm; rw [← h]; simp [hm]
  · intro hs; rw [hs] at h; simpa using h

theorem jobj_mem_keys_of_mem_toList : ∀ {ps : JObj} {k : String} {v : JVal},
    (k, v) ∈ ps.toList → k ∈ ps.keys
  | .nil, _, _, h => by simp [JObj.toList] at h
  | .cons k2 w ps, k, v, h => by
    simp only [JObj.toList, List.mem_cons] at h
    rcases h with h | h
    · simp [JObj.keys, (Prod.mk.injEq _ _ _ _ ▸ h).1]
    · simp [JObj.keys, jobj_mem_keys_of_mem_toList h]

theorem jobj_lookup_of_mem : ∀ {ps : JObj} {k : String} {v : JVal},
    ps.keys.Nodup → (k, v) ∈ ps.toList → ps.lookup k = some v
  | .nil, _, _, _, h => by simp [JObj.toList] at h
  | .cons k2 w ps, k, v, hnd, h => by
    simp only [JObj.keys, List.nodup_cons] at hnd
    simp only [JObj.toList, List.mem_cons] at h
    rcases h with h | h
    · obtain ⟨h1, h2⟩ := Prod.mk.injEq _ _ _ _ ▸ h
      simp [JObj.lookup, h1, h2]
    · have hne : k2 ≠ k := by
        intro he
        exact hnd.1 (he ▸ jobj_mem_keys_of_mem_toList h)
      simp [JObj.lookup, hne, jobj_lookup_of_mem hnd.2 h]

theorem filterMap_self {α : Type} (f : α → Option α) (l : List α)
    (h : ∀ a ∈ l, f a = some a) : l.filterMap f = l := by
  induction l with
  | nil => rfl
  | cons x xs ih => simp_all [List.filterMap_cons]

theorem derivedKey_inj (pre : String) {a b : String}
    (h : derivedKey pre a = derivedKey pre b) : a = b := by
  unfold derivedKey at h
  split at h
  · exact h
  · have hd := congrArg String.data h
    simp only [String.data_append] at hd
    have : a.data = b.data := by
      exact List.append_cancel_left hd
    calc a = ⟨a.data⟩ := rfl
    _ = ⟨b.data⟩ := by rw [this]
    _ = b := rfl

/-! ### Flattener characterization -/

theorem esfLoop_append (pre : String) : ∀ (ps : JObj) (acc : Rec), ps.keys.Nodup →
    (∀ k ∈ ps.keys, derivedKey pre k ∉ acc.map Prod.fst) →
    esfLoop pre ps acc = acc ++ ps.toList.filterMap (fun p => pairContribution pre p.1 p.2)
  | .nil, acc, _, _ => by simp [esfLoop, JObj.toList]
  | .cons k v ps, acc, hnd, hfresh => by
    have ih := esfLoop_append pre ps
    have hndk : k ∉ ps.keys ∧ ps.keys.Nodup := by
      simpa [JObj.keys, List.nodup_cons] using hnd
    have hk : derivedKey pre k ∉ acc.map Prod.fst := hfresh k (by simp [JObj.keys])
    simp only [JObj.toList, List.filterMap_cons]
    cases hpv : pairValue k v with
    | none =>
      simp only [esfLoop, pairContribution, hpv, Option.map_none']
      exact ih acc hndk.2 (fun k2 hk2 => hfresh k2 (by simp [JObj.keys, hk2]))
    | some w =>
      simp only [esfLoop, pairContribution, hpv, Option.map_some']
      rw [dictInsert_fresh _ _ _ hk]
      rw [ih (acc ++ [(derivedKey pre k, w)]) hndk.2 ?fresh]
      · simp [pairContribution]
      case fresh =>
        intro k2 hk2
        simp only [List.map_append, List.map_cons, List.map_nil, List.mem_append,
          List.mem_singleton]
        rintro (hmem | heq)
        · exact hfresh k2 (by simp [JObj.keys, hk2]) hmem
        · exact hndk.1 (derivedKey_inj pre heq ▸ hk2)

/-- C8: flattening an object whose values are all scalars, with the empty
    prefix, returns exactly the input object (same keys, same values, same
    order). -/
theorem flatten_scalar_only_identity (ps : JObj)
    (hsc : ∀ p ∈ ps.toList, p.2.isScalar = true) (hnd : ps.keys.Nodup) :
    extract_simple_fields (.obj ps) "" = ps.toList := by
  show esfLoop "" ps [] = ps.toList
  rw [esfLoop_append "" ps [] hnd (by simp)]
  simp only [List.nil_append]
  apply filterMap_self
  intro p hp
  have hs := hsc p hp
  rcases p with ⟨k, v⟩
  cases v <;> simp_all [JVal.isScalar, pairContribution, pairValue, derivedKey]

theorem flatten_scalar_only_identity_witness :
    (∀ p ∈ (JObj.cons "a" (.str "x") (JObj.cons "n" (.int 3)
        (JObj.cons "b" (.bool true) (JObj.cons "z" .null .nil)))).toList,
      p.2.isScalar = true) ∧
    (JObj.cons "a" (.str "x") (JObj.cons "n" (.int 3)
        (JObj.cons "b" (.bool true) (JObj.cons "z" .null .nil)))).keys.Nodup ∧
    extract_simple_fields (.obj (JObj.cons "a" (.str "x") (JObj.cons "n" (.int 3)
        (JObj.cons "b" (.bool true) (JObj.cons "z" .null .nil))))) "" =
      [("a", .str "x"), ("n", .int 3), ("b", .bool true), ("z", .null)] :=
  ⟨by intro p hp; simp [JObj.toList] at hp
      rcases hp with h | h | h | h <;> simp [h, JVal.isScalar],
   by simp [JObj.keys],
   by rw [flatten_scalar_only_identity _
        (by intro p hp; simp [JObj.toList] at hp
            rcases hp with h | h | h | h <;> simp [h, JVal.isScalar])
        (by simp [JObj.keys])]
      rfl⟩

/-- C7: list handling of the flattener: a list under `search_world` is
    included as its elements joined with `、` (empty list giving the empty
    string); a list under any other key is included as the empty string
    exactly when it is empty and the key is dropped entirely otherwise. -/
theorem flatten_list_handling (ps : JObj) (k : String) (xs : JArr)
    (hmem : (k, JVal.arr xs) ∈ ps.toList) (hnd : ps.keys.Nodup) :
    (k = "search_world" →
      (k, JVal.str (swJoin xs)) ∈ extract_simple_fields (.obj ps) "") ∧
    (k ≠ "search_world" → xs ≠ .nil →
      ∀ w, (k, w) ∉ extract_simple_fields (.obj ps) "") ∧
    (k ≠ "search_world" → xs = .nil →
      (k, JVal.str "") ∈ extract_simple_fields (.obj ps) "") ∧
    swJoin .nil = "" ∧
    extract_simple_fields (.obj (.cons "search_world"
      (.arr (.cons (.str "a") (.cons (.str "b") (.cons (.str "c") .nil)))) .nil)) "" =
      [("search_world", .str "a、b、c")] := by
  have hchar : extract_simple_fields (.obj ps) "" =
      ps.toList.filterMap (fun p => pairContribution "" p.1 p.2) := by
    show esfLoop "" ps [] = _
    rw [esfLoop_append "" ps [] hnd (by simp)]
    simp
  refine ⟨?_, ?_, ?_, rfl, by rfl⟩
  · intro hsw
    rw [hchar]
    exact List.mem_filterMap.mpr ⟨(k, .arr xs), hmem,
      by simp [pairContribution, pairValue, derivedKey, hsw]⟩
  · intro hsw hxs w hw
    rw [hchar] at hw
    obtain ⟨⟨k2, v2⟩, hq, he⟩ := List.mem_filterMap.mp hw
    have hk2 : k2 = k := by
      simp only [pairContribution, derivedKey, if_pos rfl] at he
      cases hu : pairValue k2 v2 with
      | none => rw [hu] at he; simp at he
      | some u => rw [hu] at he; simp at he; exact he.1
    subst hk2
    have h1 := jobj_lookup_of_mem hnd hq
    have h2 := jobj_lookup_of_mem hnd hmem
    have hv : v2 = .arr xs := by
      rw [h1] at h2; exact Option.some.inj h2
    subst hv
    cases xs with
    | nil => exact hxs rfl
    | cons y ys => simp [pairContribution, pairValue, hsw] at he
  · intro hsw hxs
    subst hxs
    rw [hchar]
    exact List.mem_filterMap.mpr ⟨(k, .arr .nil), hmem,
      by simp [pairContribution, pairValue, derivedKey, hsw]⟩

theorem flatten_list_handling_witness :
    ((("search_world" : String),
        JVal.arr (.cons (.str "a") (.cons (.str "b") (.cons (.str "c") .nil)))) ∈
      (JObj.cons "search_world"
        (.arr (.cons (.str "a") (.cons (.str "b") (.cons (.str "c") .nil))))
        (JObj.cons "tags" (.arr (.cons (.str "x") .nil)) .nil)).toList) ∧
    (JObj.cons "search_world"
        (.arr (.cons (.str "a") (.cons (.str "b") (.cons (.str "c") .nil))))
        (JObj.cons "tags" (.arr (.cons (.str "x") .nil)) .nil)).keys.Nodup ∧
    ("search_world" = "search_world" →
      (("search_world" : String),
        JVal.str (swJoin (.cons (.str "a") (.cons (.str "b") (.cons (.str "c") .nil))))) ∈
        extract_simple_fields (.obj (JObj.cons "search_world"
          (.arr (.cons (.str "a") (.cons (.str "b") (.cons (.str "c") .nil))))
          (JObj.cons "tags" (.arr (.cons (.str "x") .nil)) .nil))) "") :=
  ⟨by simp [JObj.toList], by simp [JObj.keys],
   (flatten_list_handling _ _ _ (by simp [JObj.toList]) (by simp [JObj.keys])).1⟩

/-! ### Post extractor: deviations yield the empty sequence (C5) -/

/-- C5: every payload deviating from the expected envelope shape (not an
    object / no `data` / `data` without an array `list`) makes
    `extract_posts` return the empty sequence; the function is total, every
    internal raise being caught by its own `except`. -/
theorem extract_posts_deviation (data : JVal) (h : ¬ GoodEnvelope data) :
    extract_posts data = [] := by
  cases data with
  | obj ps =>
    cases hd : ps.lookup "data" with
    | none => simp [extract_posts, hd]
    | some dsec =>
      cases dsec with
      | obj dps =>
        cases hl : dps.lookup "list" with
        | none => simp [extract_posts, hd, pyIn, jobj_mem_keys_iff, hl]
        | some il =>
          cases il with
          | arr items => exact absurd ⟨ps, dps, items, rfl, hd, hl⟩ h
          | null => simp [extract_posts, hd, pyIn, jobj_mem_keys_iff, hl, pyGetItem]
          | bool b => simp [extract_posts, hd, pyIn, jobj_mem_keys_iff, hl, pyGetItem]
          | int n => simp [extract_posts, hd, pyIn, jobj_mem_keys_iff, hl, pyGetItem]
          | str s => simp [extract_posts, hd, pyIn, jobj_mem_keys_iff, hl, pyGetItem]
          | obj qs => simp [extract_posts, hd, pyIn, jobj_mem_keys_iff, hl, pyGetItem]
      | str s =>
        cases hc : strContainsSub s "list" with
        | false => simp [extract_posts, hd, pyIn, hc]
        | true => simp [extract_posts, hd, pyIn, hc, pyGetItem]
      | arr xs =>
        cases hc : xs.containsStr "list" with
        | false => simp [extract_posts, hd, pyIn, hc]
        | true => simp [extract_posts, hd, pyIn, hc, pyGetItem]
      | null => simp [extract_posts, hd, pyIn]
      | bool b => simp [extract_posts, hd, pyIn]
      | int n => simp [extract_posts, hd, pyIn]
  | null => simp [extract_posts]
  | bool b => simp [extract_posts]
  | int n => simp [extract_posts]
  | str s => simp [extract_posts]
  | arr xs => simp [extract_posts]

theorem extract_posts_deviation_witness :
    (¬ GoodEnvelope (.obj (.cons "data" (.int 5) .nil)) ∧
      extract_posts (.obj (.cons "data" (.int 5) .nil)) = []) ∧
    (¬ GoodEnvelope (.str "not an object") ∧
      extract_posts (.str "not an object") = []) := by
  have h1 : ¬ GoodEnvelope (.obj (.cons "data" (.int 5) .nil)) := by
    rintro ⟨ps, dps, items, heq, hd, -⟩
    cases heq
    simp [JObj.lookup] at hd
  have h2 : ¬ GoodEnvelope (.str "not an object") := by
    rintro ⟨ps, dps, items, heq, -, -⟩
    exact JVal.noConfusion heq
  exact ⟨⟨h1, extract_posts_deviation _ h1⟩, ⟨h2, extract_posts_deviation _ h2⟩⟩

/-! ### Walker: mimeType exclusion (C6) -/

/-- C6: an entry whose `response.content.mimeType` equals `image/jpg`
    contributes no records and no count (and no abort), whatever its `text`
    holds — the mime check precedes decoding and extraction. -/
theorem entry_image_jpg_skipped (ps rps cps : JObj)
    (hresp : ps.lookup "response" = some (.obj rps))
    (hcont : rps.lookup "content" = some (.obj cps))
    (hmime : cps.lookup "mimeType" = some (.str "image/jpg")) :
    processEntry (.obj ps) = ⟨[], 0, false⟩ := by
  have h1 : ps.keys.contains "response" = true := by
    rw [jobj_contains_eq, hresp]; rfl
  have h2 : rps.keys.contains "content" = true := by
    rw [jobj_contains_eq, hcont]; rfl
  simp only [processEntry, pyIn, h1, pyGetItem, hresp, h2, hcont, pyDictGet, hmime]
  cases ht : cps.lookup "text" with
  | none => simp [ht, JVal.falsy]
  | some t =>
    by_cases hf : t.falsy = true
    · simp [ht, hf]
    · simp [ht, hf, pyEqStr]

theorem entry_image_jpg_skipped_witness :
    (JObj.cons "response" (.obj (.cons "content" (.obj
        (.cons "text" (.str onePostText)
        (.cons "mimeType" (.str "image/jpg") .nil))) .nil)) .nil).lookup "response" =
      some (.obj (.cons "content" (.obj
        (.cons "text" (.str onePostText)
        (.cons "mimeType" (.str "image/jpg") .nil))) .nil)) ∧
    processEntry entryJpgWithPost = ⟨[], 0, false⟩ :=
  ⟨rfl, entry_image_jpg_skipped _ _ _ rfl rfl rfl⟩

/-! ### Walker guard (C2) -/

/-- C2 counterexample: for the document `\x7b"log": "entries"\x7d` the
    `log.entries` path is absent (the `log` value is a string, not an
    object), yet the walker raises a TypeError instead of returning the empty
    result: `'entries' not in har_data['log']` is a substring test on the
    string and passes, and `har_data['log']['entries']` then raises. -/
theorem har_log_string_raises :
    extract_data_from_har harLogStr (.obj .nil) = .error .typeError ∧
    ∀ res : List Rec × Nat, extract_data_from_har harLogStr (.obj .nil) ≠ .ok res := by
  refine ⟨rfl, ?_⟩
  intro res h
  rw [show extract_data_from_har harLogStr (.obj .nil) = .error .typeError from rfl] at h
  exact Except.noConfusion h

/-- C2 amended: a falsy document, an object document without `log`, an object
    `log` value without `entries`, or an empty `entries` array each yield
    `([], 0)` without an exception.  (The original claim's "no `entries` key
    under `log`" is not safe when the `log` value is a non-object — see the
    counterexample.) -/
theorem har_missing_entries_empty (har : JVal)
    (h : har.falsy = true ∨
      (∃ ps, har = JVal.obj ps ∧ ps.lookup "log" = none) ∨
      (∃ ps lps, har = JVal.obj ps ∧ ps.lookup "log" = some (.obj lps) ∧
        lps.lookup "entries" = none) ∨
      (∃ ps lps, har = JVal.obj ps ∧ ps.lookup "log" = some (.obj lps) ∧
        lps.lookup "entries" = some (.arr .nil)))
    (cfg : JVal) :
    extract_data_from_har har cfg = .ok ([], 0) := by
  rcases h with hf | ⟨ps, heq, hl⟩ | ⟨ps, lps, heq, hl, he⟩ | ⟨ps, lps, heq, hl, he⟩
  · simp [extract_data_from_har, harEntries, hf]
  · subst heq
    cases ps with
    | nil => simp [extract_data_from_har, harEntries, JVal.falsy]
    | cons k v qs =>
      simp [extract_data_from_har, harEntries, JVal.falsy, pyIn,
        jobj_mem_keys_iff, hl]
  · subst heq
    cases ps with
    | nil => simp [JObj.lookup] at hl
    | cons k v qs =>
      simp [extract_data_from_har, harEntries, JVal.falsy, pyIn,
        jobj_mem_keys_iff, hl, pyGetItem, he]
  · subst heq
    cases ps with
    | nil => simp [JObj.lookup] at hl
    | cons k v qs =>
      simp [extract_data_from_har, harEntries, JVal.falsy, pyIn,
        jobj_mem_keys_iff, hl, pyGetItem, he, pyIter, JArr.toList, foldEntries]

theorem har_missing_entries_empty_witness :
    (JVal.obj (.cons "log" (.obj (.cons "entries" (.arr .nil) .nil)) .nil) =
      JVal.obj (.cons "log" (.obj (.cons "entries" (.arr .nil) .nil)) .nil)) ∧
    extract_data_from_har
      (.obj (.cons "log" (.obj (.cons "entries" (.arr .nil) .nil)) .nil))
      (.obj .nil) = .ok ([], 0) :=
  ⟨rfl, har_missing_entries_empty _
    (Or.inr (Or.inr (Or.inr
      ⟨.cons "log" (.obj (.cons "entries" (.arr .nil) .nil)) .nil,
       .cons "entries" (.arr .nil) .nil, rfl, rfl, rfl⟩))) _⟩

/-! ### Timestamp normalization and the valid-post count (C1, C3) -/

/-- C1 (code bug): a `time`-named field holding the digit string `2^63`
    passes the digit guard, `int()` succeeds, and `datetime.fromtimestamp`
    raises OverflowError — which is missing from the handler's
    `except (ValueError, TypeError, OSError)` — so the exception escapes the
    normalization step (`.error ()`) instead of leaving the value unmodified.
    In-range digits are reformatted, non-digits and non-`time` names are left
    untouched, as the claim states. -/
theorem timestamp_overflow_escapes :
    normalizeRec [("aweme_create_time", .str "9223372036854775808")] = .error () ∧
    normalizeRec [("aweme_create_time", .str "1700000000")] =
      .ok [("aweme_create_time", .str "2023-11-14 22:13:20")] ∧
    normalizeRec [("aweme_create_time", .str "abc")] =
      .ok [("aweme_create_time", .str "abc")] ∧
    normalizeRec [("nickname", .str "1700000000")] =
      .ok [("nickname", .str "1700000000")] :=
  ⟨rfl, rfl, rfl, rfl⟩

/-- C3 counterexample: a HAR with one entry holding one post whose
    `create_time` digit string is `2^63`: the post is counted before its
    normalization raises the uncaught OverflowError, the entry-level handler
    swallows it after the record append was skipped, and the walker returns
    zero records with a count of one. -/
theorem count_mismatch_on_overflow :
    extract_data_from_har harOverflow (.obj .nil) = .ok ([], 1) ∧
    ¬ ((1 : Nat) = ([] : List Rec).length) :=
  ⟨rfl, by simp⟩

theorem postsLoop_count : ∀ (posts : List Rec) (acc : List Rec) (n : Nat),
    (postsLoop posts acc n).cnt + acc.length =
      (postsLoop posts acc n).recs.length + n +
        (if (postsLoop posts acc n).aborted then 1 else 0)
  | [], acc, n => by simp [postsLoop]; omega
  | post :: rest, acc, n => by
    cases hn : normalizeRec (sortedCopy post) with
    | ok pd =>
      have ih := postsLoop_count rest (acc ++ [pd]) (n + 1)
      simp only [postsLoop, hn, List.length_append, List.length_singleton] at ih ⊢
      omega
    | error e =>
      simp [postsLoop, hn]
      omega

theorem processEntry_count (e : JVal) :
    (processEntry e).recs.length ≤ (processEntry e).cnt ∧
    ((processEntry e).aborted = false →
      (processEntry e).recs.length = (processEntry e).cnt) := by
  have key : ∀ posts : List Rec,
      (postsLoop posts [] 0).recs.length ≤ (postsLoop posts [] 0).cnt ∧
      ((postsLoop posts [] 0).aborted = false →
        (postsLoop posts [] 0).recs.length = (postsLoop posts [] 0).cnt) := by
    intro posts
    have h := postsLoop_count posts [] 0
    by_cases ha : (postsLoop posts [] 0).aborted = true
    · simp [ha] at h
      exact ⟨by omega, fun hf => by rw [hf] at ha; exact absurd ha (by simp)⟩
    · simp at ha
      simp [ha] at h
      exact ⟨by omega, fun _ => by omega⟩
  unfold processEntry
  repeat' split
  all_goals first
    | exact key _
    | simp

theorem processEntry_tri (e : JVal) :
    (processEntry e).recs.length = (processEntry e).cnt ∨
    ((processEntry e).aborted = true ∧
      (processEntry e).cnt = (processEntry e).recs.length + 1) := by
  have key : ∀ posts : List Rec,
      (postsLoop posts [] 0).recs.length = (postsLoop posts [] 0).cnt ∨
      ((postsLoop posts [] 0).aborted = true ∧
        (postsLoop posts [] 0).cnt = (postsLoop posts [] 0).recs.length + 1) := by
    intro posts
    have h := postsLoop_count posts [] 0
    by_cases ha : (postsLoop posts [] 0).aborted = true
    · right
      simp [ha] at h
      exact ⟨ha, by omega⟩
    · left
      simp at ha
      simp [ha] at h
      omega
  unfold processEntry
  repeat' split
  all_goals first
    | exact key _
    | simp

theorem processEntry_count2 (e : JVal)
    (h : (processEntry e).aborted = true → (processEntry e).cnt = 0) :
    (processEntry e).recs.length = (processEntry e).cnt := by
  rcases processEntry_tri e with heq | ⟨ha, hc⟩
  · exact heq
  · have := h ha
    omega

theorem postsLoop_abort : ∀ (posts acc : List Rec) (n : Nat),
    (postsLoop posts acc n).aborted = true →
    ∃ p ∈ posts, normalizeRec (sortedCopy p) = .error ()
  | [], acc, n, h => by simp [postsLoop] at h
  | post :: rest, acc, n, h => by
    cases hn : normalizeRec (sortedCopy post) with
    | ok pd =>
      rw [show postsLoop (post :: rest) acc n = postsLoop rest (acc ++ [pd]) (n + 1)
        from by simp [postsLoop, hn]] at h
      obtain ⟨p, hp, he⟩ := postsLoop_abort rest _ _ h
      exact ⟨p, by simp [hp], he⟩
    | error u =>
      cases u
      exact ⟨post, by simp, hn⟩

theorem normalizeRec_error_field : ∀ (r : Rec), normalizeRec r = .error () →
    ∃ kv ∈ r, normalizeField kv.1 kv.2 = .error ()
  | [], h => by simp [normalizeRec] at h
  | (k, v) :: rest, h => by
    cases hf : normalizeField k v with
    | error u =>
      cases u
      exact ⟨(k, v), by simp, hf⟩
    | ok v' =>
      cases hr : normalizeRec rest with
      | ok r2 =>
        rw [show normalizeRec ((k, v) :: rest) = .ok ((k, v') :: r2)
          from by simp [normalizeRec, hf, hr]] at h
        exact Except.noConfusion h
      | error u =>
        cases u
        obtain ⟨kv, hm, he⟩ := normalizeRec_error_field rest hr
        exact ⟨kv, by simp [hm], he⟩

theorem normalizeField_error_iff (k : String) (v : JVal) :
    normalizeField k v = .error () ↔
      (strContainsSub (strToLower k) "time" && !v.falsy &&
        isDigitStr (pyStr v)) = true ∧
      2 ^ 63 ≤ pyIntOfDigits (pyStr v) := by
  unfold normalizeField
  by_cases hg : (strContainsSub (strToLower k) "time" && !v.falsy &&
      isDigitStr (pyStr v)) = true
  · rw [if_pos hg]
    unfold pyFromtimestampStr
    by_cases ho : pyIntOfDigits (pyStr v) ≥ 2 ^ 63
    · rw [if_pos ho]
      simp [hg]
      omega
    · rw [if_neg ho]
      constructor
      · intro hcontra
        by_cases hc : pyIntOfDigits (pyStr v) > 253402300799 <;>
          simp [hc] at hcontra
      · rintro ⟨_, habs⟩
        exact absurd habs ho
  · rw [if_neg hg]
    simp [hg]

theorem processEntry_entryPosts (e : JVal) :
    processEntry e = postsLoop (entryPosts e) [] 0 ∨
    processEntry e = ⟨[], 0, true⟩ := by
  unfold processEntry entryPosts
  cases h1 : pyIn "response" e with
  | error e1 => simp only []; exact Or.inr trivial
  | ok b1 =>
    cases b1 with
    | false => simp only []; exact Or.inl rfl
    | true =>
      simp only []
      cases h2 : pyGetItem e "response" with
      | error e2 => simp only []; exact Or.inr trivial
      | ok resp =>
        simp only []
        cases h3 : pyIn "content" resp with
        | error e3 => simp only []; exact Or.inr trivial
        | ok b3 =>
          cases b3 with
          | false => simp only []; exact Or.inl rfl
          | true =>
            simp only []
            cases h4 : pyGetItem resp "content" with
            | error e4 => simp only []; exact Or.inr trivial
            | ok content =>
              simp only []
              cases h5 : pyDictGet content "text" .null with
              | error e5 => simp only []; exact Or.inr trivial
              | ok text =>
                simp only []
                by_cases h6 : text.falsy = true
                · rw [if_pos h6, if_pos h6]
                  exact Or.inl rfl
                · rw [if_neg h6, if_neg h6]
                  cases h7 : pyDictGet content "mimeType" (.str "unknown") with
                  | error e7 => simp only []; exact Or.inr trivial
                  | ok mime =>
                    simp only []
                    by_cases h8 : pyEqStr mime "image/jpg" = true
                    · rw [if_pos h8, if_pos h8]
                      exact Or.inl rfl
                    · rw [if_neg h8, if_neg h8]
                      cases h9 : pyDictGet content "text" (.str "") with
                      | error e9 => simp only []; exact Or.inr trivial
                      | ok text2 =>
                        simp only []
                        cases h10 : decode_content text2 with
                        | none => simp only []; exact Or.inl rfl
                        | some data =>
                          simp only []
                          by_cases h11 : data.falsy = true
                          · rw [if_pos h11, if_pos h11]
                            exact Or.inl rfl
                          · rw [if_neg h11, if_neg h11]
                            exact Or.inl rfl

theorem foldEntries_count : ∀ (es : List JVal) (acc : List Rec × Nat),
    (acc.1.length ≤ acc.2 →
      (es.foldl (fun acc e =>
        let r := processEntry e
        (acc.1 ++ r.recs, acc.2 + r.cnt)) acc).1.length ≤
      (es.foldl (fun acc e =>
        let r := processEntry e
        (acc.1 ++ r.recs, acc.2 + r.cnt)) acc).2) ∧
    (acc.1.length = acc.2 →
      (∀ e ∈ es, (processEntry e).aborted = true → (processEntry e).cnt = 0) →
      (es.foldl (fun acc e =>
        let r := processEntry e
        (acc.1 ++ r.recs, acc.2 + r.cnt)) acc).1.length =
      (es.foldl (fun acc e =>
        let r := processEntry e
        (acc.1 ++ r.recs, acc.2 + r.cnt)) acc).2)
  | [], acc => by simp
  | e :: es, acc => by
    have ih := foldEntries_count es
      (acc.1 ++ (processEntry e).recs, acc.2 + (processEntry e).cnt)
    have hpe := processEntry_count e
    constructor
    · intro hle
      simp only [List.foldl_cons]
      refine ih.1 ?_
      simp only [List.length_append]
      omega
    · intro heq hall
      simp only [List.foldl_cons]
      refine ih.2 ?_ (fun x hx => hall x (List.mem_cons_of_mem _ hx))
      simp only [List.length_append]
      have := processEntry_count2 e (hall e (List.mem_cons_self _ _))
      omega

/-- C3 amended: the walker's valid-post count is at least the number of
    returned records, and equals it whenever no entry's processing aborts
    between counting a post and appending its record.  The posts loop is the
    entry's final act, so such an abort is exactly an aborted entry with a
    nonzero count (first conjunct of the hypothesis in the second part); the
    third part proves the claim's "in particular" sufficient condition: the
    count matches whenever no field of any post of any entry makes the
    normalization step raise; and the fourth part characterizes that raise as
    precisely a `time`-named truthy all-digits field whose integer value is at
    least 2^63 (the uncaught OverflowError of C1). -/
theorem count_matches_records (har cfg : JVal) (rows : List Rec) (n : Nat)
    (h : extract_data_from_har har cfg = .ok (rows, n)) :
    rows.length ≤ n ∧
    ((∀ e ∈ harEntriesList har, (processEntry e).aborted = true →
        (processEntry e).cnt = 0) → rows.length = n) ∧
    ((∀ e ∈ harEntriesList har, ∀ p ∈ entryPosts e, ∀ kv ∈ sortedCopy p,
        normalizeField kv.1 kv.2 ≠ .error ()) → rows.length = n) ∧
    (∀ k v, normalizeField k v = .error () ↔
      (strContainsSub (strToLower k) "time" && !v.falsy &&
        isDigitStr (pyStr v)) = true ∧
      2 ^ 63 ≤ pyIntOfDigits (pyStr v)) := by
  have hmain : rows.length ≤ n ∧
      ((∀ e ∈ harEntriesList har, (processEntry e).aborted = true →
        (processEntry e).cnt = 0) → rows.length = n) := by
    unfold extract_data_from_har at h
    cases hh : harEntries har with
    | error e => rw [hh] at h; exact Except.noConfusion h
    | ok o =>
      cases o with
      | none =>
        rw [hh] at h
        obtain ⟨h1, h2⟩ := Prod.mk.injEq _ _ _ _ ▸ Except.ok.inj h
        subst h1; subst h2
        simp
      | some es =>
        rw [hh] at h
        have hf := foldEntries_count es ([], 0)
        have hel : harEntriesList har = es := by
          unfold harEntriesList; rw [hh]
        obtain ⟨h1, h2⟩ := Prod.mk.injEq _ _ _ _ ▸ Except.ok.inj h
        subst h1; subst h2
        rw [hel]
        exact ⟨hf.1 (by simp), fun hall => hf.2 rfl hall⟩
  refine ⟨hmain.1, hmain.2, ?_, normalizeField_error_iff⟩
  intro h3
  refine hmain.2 ?_
  intro e he ha
  rcases processEntry_entryPosts e with hpe | hpe
  · obtain ⟨p, hp, herr⟩ := postsLoop_abort (entryPosts e) [] 0
      (by rw [← hpe]; exact ha)
    obtain ⟨kv, hkv, hfld⟩ := normalizeRec_error_field (sortedCopy p) herr
    exact absurd hfld (h3 e he p hp kv hkv)
  · rw [hpe]

theorem count_matches_records_witness :
    extract_data_from_har harOnePost (.obj .nil) =
      .ok ([[("author_nickname", JVal.str "Alice"), ("aweme_aweme_id", .str "1"),
             ("aweme_create_time", .str "2023-11-14 22:13:20")]], 1) ∧
    ([[("author_nickname", JVal.str "Alice"), ("aweme_aweme_id", .str "1"),
       ("aweme_create_time", .str "2023-11-14 22:13:20")]] : List Rec).length = 1 :=
  ⟨rfl, (count_matches_records harOnePost (.obj .nil) _ 1 rfl).2.1
    (by intro e he ha
        rw [show harEntriesList harOnePost =
          [.obj (.cons "response" (.obj (.cons "content" (.obj
            (.cons "text" (.str onePostText)
            (.cons "mimeType" (.str "application/json") .nil))) .nil)) .nil)] from rfl] at he
        rw [List.mem_singleton.mp he] at ha
        exact absurd ha (by decide))⟩

/-! ### Sorting and key unions (for the CSV exporters) -/

theorem charListLe_total : ∀ as bs : List Char,
    charListLe as bs = true ∨ charListLe bs as = true
  | [], _ => Or.inl rfl
  | _ :: _, [] => Or.inr rfl
  | a :: as, b :: bs => by
    rcases Nat.lt_trichotomy a.toNat b.toNat with h | h | h
    · left; simp [charListLe, h]
    · have h1 : ¬ a.toNat < b.toNat := by omega
      have h2 : ¬ b.toNat < a.toNat := by omega
      rcases charListLe_total as bs with hh | hh
      · left; simp [charListLe, h1, h2, hh]
      · right; simp [charListLe, h1, h2, hh]
    · right; simp [charListLe, h]

theorem charListLe_antisymm : ∀ as bs : List Char,
    charListLe as bs = true → charListLe bs as = true → as = bs
  | [], [], _, _ => rfl
  | [], _ :: _, _, h2 => by simp [charListLe] at h2
  | _ :: _, [], h1, _ => by simp [charListLe] at h1
  | a :: as, b :: bs, h1, h2 => by
    by_cases hab : a.toNat < b.toNat
    · have : ¬ b.toNat < a.toNat := by omega
      simp [charListLe, hab, this] at h2
    · by_cases hba : b.toNat < a.toNat
      · simp [charListLe, hab, hba] at h1
      · have hc : a = b := by
          have he : a.toNat = b.toNat := by omega
          calc a = Char.ofNat a.toNat := (Char.ofNat_toNat a).symm
          _ = Char.ofNat b.toNat := by rw [he]
          _ = b := Char.ofNat_toNat b
        simp only [charListLe, hab, hba, if_false] at h1 h2
        rw [hc, charListLe_antisymm as bs h1 h2]

theorem charListLe_trans : ∀ as bs cs : List Char,
    charListLe as bs = true → charListLe bs cs = true → charListLe as cs = true
  | [], _, _, _, _ => rfl
  | _ :: _, [], _, h1, _ => by simp [charListLe] at h1
  | _ :: _, _ :: _, [], _, h2 => by simp [charListLe] at h2
  | a :: as, b :: bs, c :: cs, h1, h2 => by
    rcases Nat.lt_trichotomy a.toNat b.toNat with hab | hab | hab
    · rcases Nat.lt_trichotomy b.toNat c.toNat with hbc | hbc | hbc
      · simp [charListLe, show a.toNat < c.toNat from by omega]
      · simp [charListLe, show a.toNat < c.toNat from by omega]
      · exfalso
        simp [charListLe, show ¬ b.toNat < c.toNat from by omega, hbc] at h2
    · have h1' : charListLe as bs = true := by
        simpa [charListLe, show ¬ a.toNat < b.toNat from by omega,
               show ¬ b.toNat < a.toNat from by omega] using h1
      rcases Nat.lt_trichotomy b.toNat c.toNat with hbc | hbc | hbc
      · simp [charListLe, show a.toNat < c.toNat from by omega]
      · have h2' : charListLe bs cs = true := by
          simpa [charListLe, show ¬ b.toNat < c.toNat from by omega,
                 show ¬ c.toNat < b.toNat from by omega] using h2
        simp [charListLe, show ¬ a.toNat < c.toNat from by omega,
              show ¬ c.toNat < a.toNat from by omega]
        exact charListLe_trans as bs cs h1' h2'
      · exfalso
        simp [charListLe, show ¬ b.toNat < c.toNat from by omega, hbc] at h2
    · exfalso
      simp [charListLe, show ¬ a.toNat < b.toNat from by omega, hab] at h1

theorem strLeb_total (a b : String) : strLeb a b = true ∨ strLeb b a = true :=
  charListLe_total a.data b.data

theorem strLeb_antisymm {a b : String} (h1 : strLeb a b = true)
    (h2 : strLeb b a = true) : a = b := by
  have := charListLe_antisymm a.data b.data h1 h2
  calc a = ⟨a.data⟩ := rfl
  _ = ⟨b.data⟩ := by rw [this]
  _ = b := rfl

theorem strLeb_trans {a b c : String} (h1 : strLeb a b = true)
    (h2 : strLeb b c = true) : strLeb a c = true :=
  charListLe_trans a.data b.data c.data h1 h2

instance : IsAntisymm String (fun a b => strLeb a b = true) :=
  ⟨fun _ _ h1 h2 => strLeb_antisymm h1 h2⟩

theorem insertSorted_perm : ∀ (l : List String) (x : String),
    (insertSorted x l).Perm (x :: l)
  | [], _ => List.Perm.refl _
  | y :: ys, x => by
    simp only [insertSorted]
    split
    · exact List.Perm.refl _
    · exact ((insertSorted_perm ys x).cons y).trans (List.Perm.swap x y ys)

theorem sortStrs_perm : ∀ l : List String, (sortStrs l).Perm l
  | [] => List.Perm.refl _
  | x :: l => by
    show (insertSorted x (sortStrs l)).Perm (x :: l)
    exact (insertSorted_perm (sortStrs l) x).trans ((sortStrs_perm l).cons x)

theorem insertSorted_sorted : ∀ (l : List String) (x : String),
    l.Pairwise (fun a b => strLeb a b = true) →
    (insertSorted x l).Pairwise (fun a b => strLeb a b = true)
  | [], x, _ => by simp [insertSorted]
  | y :: ys, x, h => by
    simp only [insertSorted]
    rcases List.pairwise_cons.mp h with ⟨hy, hys⟩
    split
    · refine List.pairwise_cons.mpr ⟨?_, h⟩
      intro z hz
      rcases List.mem_cons.mp hz with hz | hz
      · subst hz; assumption
      · exact strLeb_trans (by assumption) (hy z hz)
    · refine List.pairwise_cons.mpr ⟨?_, insertSorted_sorted ys x hys⟩
      intro z hz
      have hz' := (insertSorted_perm ys x).mem_iff.mp hz
      rcases List.mem_cons.mp hz' with hz' | hz'
      · subst hz'
        rcases strLeb_total y z with hh | hh
        · exact hh
        · exact absurd hh (by assumption)
      · exact hy z hz'

theorem sortStrs_sorted : ∀ l : List String,
    (sortStrs l).Pairwise (fun a b => strLeb a b = true)
  | [] => List.Pairwise.nil
  | x :: l => insertSorted_sorted (sortStrs l) x (sortStrs_sorted l)

theorem sortStrs_eq_of_perm {l1 l2 : List String} (h : l1.Perm l2) :
    sortStrs l1 = sortStrs l2 :=
  List.eq_of_perm_of_sorted
    ((sortStrs_perm l1).trans (h.trans (sortStrs_perm l2).symm))
    (sortStrs_sorted l1) (sortStrs_sorted l2)

theorem unionInner_mem : ∀ (ks : List String) (acc : List String) (x : String),
    x ∈ ks.foldl (fun a k => if a.contains k then a else a ++ [k]) acc ↔
      x ∈ acc ∨ x ∈ ks
  | [], acc, x => by simp
  | k :: ks, acc, x => by
    simp only [List.foldl_cons]
    by_cases hc : acc.contains k = true
    · have hk : k ∈ acc := by
        simpa [List.contains, List.elem_eq_mem] using hc
      rw [if_pos hc, unionInner_mem ks acc x]
      simp only [List.mem_cons]
      constructor
      · rintro (h | h)
        · exact Or.inl h
        · exact Or.inr (Or.inr h)
      · rintro (h | h | h)
        · exact Or.inl h
        · exact Or.inl (h ▸ hk)
        · exact Or.inr h
    · rw [if_neg hc, unionInner_mem ks (acc ++ [k]) x]
      simp only [List.mem_append, List.mem_singleton, List.mem_cons]
      tauto

theorem unionInner_nodup : ∀ (ks : List String) (acc : List String),
    acc.Nodup → (ks.foldl (fun a k => if a.contains k then a else a ++ [k]) acc).Nodup
  | [], acc, h => h
  | k :: ks, acc, h => by
    simp only [List.foldl_cons]
    by_cases hc : acc.contains k = true
    · rw [if_pos hc]; exact unionInner_nodup ks acc h
    · have hk : k ∉ acc := by
        simpa [List.contains, List.elem_eq_mem] using hc
      rw [if_neg hc]
      refine unionInner_nodup ks (acc ++ [k]) ?_
      simp [List.nodup_append, h, hk]

theorem keyUnion_aux_mem : ∀ (rows : List Rec) (acc : List String) (x : String),
    x ∈ rows.foldl (fun acc r =>
      (r.map Prod.fst).foldl (fun a k => if a.contains k then a else a ++ [k]) acc) acc ↔
      x ∈ acc ∨ ∃ r ∈ rows, x ∈ r.map Prod.fst
  | [], acc, x => by simp
  | r :: rows, acc, x => by
    simp only [List.foldl_cons]
    rw [keyUnion_aux_mem rows _ x, unionInner_mem]
    simp only [List.mem_cons]
    constructor
    · rintro ((h | h) | ⟨q, hq, hx⟩)
      · exact Or.inl h
      · exact Or.inr ⟨r, Or.inl rfl, h⟩
      · exact Or.inr ⟨q, Or.inr hq, hx⟩
    · rintro (h | ⟨q, hq | hq, hx⟩)
      · exact Or.inl (Or.inl h)
      · exact Or.inl (Or.inr (hq ▸ hx))
      · exact Or.inr ⟨q, hq, hx⟩

theorem keyUnion_mem (rows : List Rec) (x : String) :
    x ∈ keyUnion rows ↔ ∃ r ∈ rows, x ∈ r.map Prod.fst := by
  unfold keyUnion
  rw [keyUnion_aux_mem rows [] x]
  simp

theorem keyUnion_nodup : ∀ rows : List Rec, (keyUnion rows).Nodup := by
  have aux : ∀ (rows : List Rec) (acc : List String), acc.Nodup →
      (rows.foldl (fun acc r =>
        (r.map Prod.fst).foldl (fun a k => if a.contains k then a else a ++ [k]) acc) acc).Nodup := by
    intro rows
    induction rows with
    | nil => intro acc h; exact h
    | cons r rows ih =>
      intro acc h
      simp only [List.foldl_cons]
      exact ih _ (unionInner_nodup _ acc h)
  intro rows
  exact aux rows [] List.nodup_nil

theorem sortedFieldUnion_eq_spec (rows : List Rec) :
    sortedFieldUnion rows = lexSortedKeyUnion rows := by
  unfold sortedFieldUnion lexSortedKeyUnion
  apply sortStrs_eq_of_perm
  apply List.perm_of_nodup_nodup_toFinset_eq (keyUnion_nodup rows) (List.nodup_dedup _)
  ext x
  simp only [List.mem_toFinset, List.mem_dedup, List.mem_flatMap, keyUnion_mem]

/-! ### CSV export (C9, C10) -/

theorem specCell_eq (r : Rec) (f : String) :
    specCell r f = csvRender ((recLookup r f).getD .null) := by
  unfold specCell
  cases recLookup r f <;> rfl

/-- C9: the full export writes nothing for an empty record list (no
    header-only file), and otherwise a BOM-prefixed CSV whose header is the
    lexicographically sorted union of all record keys, every record's missing
    fields rendered as the empty string. -/
theorem to_csv_bytes_spec :
    to_csv_bytes [] = [] ∧
    ∀ rows : List Rec, rows ≠ [] →
      to_csv_bytes rows = utf8Encode ("﻿" ++ csvRow (lexSortedKeyUnion rows) ++
        String.join (rows.map (fun r =>
          csvRow ((lexSortedKeyUnion rows).map (fun f => specCell r f))))) := by
  refine ⟨rfl, ?_⟩
  intro rows hne
  unfold to_csv_bytes
  rw [if_neg (by simpa using hne)]
  rw [← sortedFieldUnion_eq_spec]
  simp only [specCell_eq]

theorem to_csv_bytes_spec_witness :
    (([[("b", JVal.int 5)], [("a", JVal.str "x")]] : List Rec) ≠ []) ∧
    to_csv_bytes [[("b", JVal.int 5)], [("a", JVal.str "x")]] =
      utf8Encode ("﻿" ++
        csvRow (lexSortedKeyUnion [[("b", JVal.int 5)], [("a", JVal.str "x")]]) ++
        String.join (([[("b", JVal.int 5)], [("a", JVal.str "x")]] : List Rec).map (fun r =>
          csvRow ((lexSortedKeyUnion [[("b", JVal.int 5)], [("a", JVal.str "x")]]).map
            (fun f => specCell r f))))) :=
  ⟨by simp, to_csv_bytes_spec.2 _ (by simp)⟩

theorem selectedFold_of_missing (row : Rec) :
    ∀ (hs : List (String × String)), (∀ p ∈ hs, recLookup row p.1 = none) →
    ∀ nr : Rec,
      hs.foldl (fun nr p => dictInsert p.2 ((recLookup row p.1).getD (.str "")) nr) nr =
      hs.foldl (fun nr p => dictInsert p.2 ((recLookup ([] : Rec) p.1).getD (.str "")) nr) nr
  | [], _, _ => rfl
  | p :: ps, h, nr => by
    simp only [List.foldl_cons, h p (List.mem_cons_self _ _), recLookup_nil]
    exact selectedFold_of_missing row ps (fun q hq => h q (List.mem_cons_of_mem _ hq)) _

/-- C10: the selected-column export writes nothing for an empty record list,
    and for one record holding none of the mapped source fields it writes the
    fixed display-name header row plus exactly one all-empty quoted row. -/
theorem download_selected_csv_spec :
    download_selected_csv [] "out.csv" = [] ∧
    ∀ r : Rec, (∀ p ∈ SELECTED_HEADERS, recLookup r p.1 = none) →
      download_selected_csv [r] "out.csv" =
        utf8Encode ("﻿" ++ csvRow (SELECTED_HEADERS.map Prod.snd) ++
          csvRow (SELECTED_HEADERS.map (fun _ => ""))) := by
  refine ⟨rfl, ?_⟩
  intro r h
  unfold download_selected_csv extract_selected_columns
  simp only [List.map_cons, List.map_nil]
  rw [selectedFold_of_missing r SELECTED_HEADERS h []]
  rfl

theorem download_selected_csv_spec_witness :
    (∀ p ∈ SELECTED_HEADERS, recLookup [("zz", JVal.null)] p.1 = none) ∧
    download_selected_csv [[("zz", JVal.null)]] "out.csv" =
      utf8Encode ("﻿" ++ csvRow (SELECTED_HEADERS.map Prod.snd) ++
        csvRow (SELECTED_HEADERS.map (fun _ => ""))) := by
  have h : ∀ p ∈ SELECTED_HEADERS, recLookup [(("zz" : String), JVal.null)] p.1 = none := by
    intro p hp
    fin_cases hp <;> rfl
  exact ⟨h, download_selected_csv_spec.2 _ h⟩

/-! ### Decimal digit printing and parsing -/

theorem digitChar_isDigit : ∀ d : Fin 10,
    (Char.ofNat (48 + d.val)).isDigit = true ∧
    (Char.ofNat (48 + d.val)).toNat = 48 + d.val := by decide

theorem digitsVal_acc : ∀ (cs : List Char) (a : Nat),
    cs.foldl (fun a c => a * 10 + (c.toNat - 48)) a =
      a * 10 ^ cs.length + digitsVal cs
  | [], a => by simp [digitsVal]
  | c :: cs, a => by
    have h1 := digitsVal_acc cs (a * 10 + (c.toNat - 48))
    have h2 := digitsVal_acc cs (0 * 10 + (c.toNat - 48))
    simp only [digitsVal, List.foldl_cons, List.length_cons] at *
    rw [h1, h2]
    ring

theorem natCharsAux_spec : ∀ (f n : Nat), n < f →
    natCharsAux f n ≠ [] ∧ (∀ c ∈ natCharsAux f n, c.isDigit = true) ∧
    digitsVal (natCharsAux f n) = n
  | 0, n, h => absurd h (by omega)
  | f + 1, n, h => by
    by_cases h10 : n < 10
    · simp only [natCharsAux, if_pos h10]
      have hd := digitChar_isDigit ⟨n, h10⟩
      refine ⟨by simp, by simpa using hd.1, ?_⟩
      simp [digitsVal, hd.2]
    · simp only [natCharsAux, if_neg h10]
      have hdiv : n / 10 < n := Nat.div_lt_self (by omega) (by omega)
      have hrec := natCharsAux_spec f (n / 10) (by omega)
      have hd := digitChar_isDigit ⟨n % 10, by omega⟩
      refine ⟨by simp, ?_, ?_⟩
      · intro c hc
        rcases List.mem_append.mp hc with hc | hc
        · exact hrec.2.1 c hc
        · simp at hc; subst hc; simpa using hd.1
      · have := digitsVal_acc [Char.ofNat (48 + n % 10)] (digitsVal (natCharsAux f (n / 10)))
        simp only [digitsVal, List.foldl_append]
        show (List.foldl _ (List.foldl (fun a c => a * 10 + (c.toNat - 48)) 0
          (natCharsAux f (n / 10))) [Char.ofNat (48 + n % 10)]) = n
        have hv : List.foldl (fun a c => a * 10 + (c.toNat - 48)) 0
            (natCharsAux f (n / 10)) = n / 10 := hrec.2.2
        rw [hv]
        simp only [List.foldl_cons, List.foldl_nil, hd.2]
        omega

theorem natChars_spec (n : Nat) : natChars n ≠ [] ∧
    (∀ c ∈ natChars n, c.isDigit = true) ∧ digitsVal (natChars n) = n :=
  natCharsAux_spec (n + 1) n (by omega)

theorem takeWhile_append_all {α : Type} (p : α → Bool) :
    ∀ (l r : List α), (∀ x ∈ l, p x = true) →
    (l ++ r).takeWhile p = l ++ r.takeWhile p
  | [], r, _ => rfl
  | x :: l, r, h => by
    simp only [List.cons_append, List.takeWhile_cons, h x (List.mem_cons_self _ _)]
    simp [takeWhile_append_all p l r (fun y hy => h y (List.mem_cons_of_mem _ hy))]

theorem dropWhile_append_all {α : Type} (p : α → Bool) :
    ∀ (l r : List α), (∀ x ∈ l, p x = true) →
    (l ++ r).dropWhile p = r.dropWhile p
  | [], r, _ => rfl
  | x :: l, r, h => by
    simp only [List.cons_append, List.dropWhile_cons, h x (List.mem_cons_self _ _)]
    simp [dropWhile_append_all p l r (fun y hy => h y (List.mem_cons_of_mem _ hy))]

theorem parseNatNum_digits (ds : List Char) (rest : List Char)
    (hne : ds ≠ []) (hd : ∀ c ∈ ds, c.isDigit = true) (hrest : SepAfter rest) :
    parseNatNum (ds ++ rest) = some (digitsVal ds, rest) := by
  have hem : ds.isEmpty = false := by
    cases ds with
    | nil => exact absurd rfl hne
    | cons d dt => rfl
  rcases hrest with rfl | ⟨c, r, rfl, hc⟩
  · have h1 : List.takeWhile Char.isDigit (ds ++ []) = ds := by
      simpa using takeWhile_append_all Char.isDigit ds [] hd
    have h2 : List.dropWhile Char.isDigit (ds ++ []) = [] := by
      simpa using dropWhile_append_all Char.isDigit ds [] hd
    unfold parseNatNum
    simp only [h1, h2, hem, Bool.false_eq_true, if_false]
  · have hcd : c.isDigit = false := by
      rcases hc with rfl | rfl | rfl <;> decide
    have h1 : List.takeWhile Char.isDigit (ds ++ c :: r) = ds := by
      rw [takeWhile_append_all Char.isDigit ds _ hd]
      simp [List.takeWhile_cons, hcd]
    have h2 : List.dropWhile Char.isDigit (ds ++ c :: r) = c :: r := by
      rw [dropWhile_append_all Char.isDigit ds _ hd]
      simp [List.dropWhile_cons, hcd]
    unfold parseNatNum
    simp only [h1, h2, hem, Bool.false_eq_true, if_false]
    have hnf : ¬ (c = '.' ∨ c = 'e' ∨ c = 'E') := by
      rcases hc with rfl | rfl | rfl <;> decide
    simp [hnf]

/-! ### JSON string literal round trip -/

theorem hexDigit_val : ∀ x : Fin 16, hexVal1 (hexDigit x.val) = some x.val := by decide

theorem skipWs_not_ws {c : Char} (h : isWsChar c = false) (tl : List Char) :
    skipWs (c :: tl) = c :: tl := by simp [skipWs, List.dropWhile_cons, h]

theorem parseStrAux_roundtrip : ∀ (cs rest : List Char),
    parseStrAux (cs.flatMap escCharL ++ ('"' :: rest)) = some (cs, rest)
  | [], rest => by
    rw [List.flatMap_nil, List.nil_append, parseStrAux.eq_def]
    simp
  | c :: cs, rest => by
    have ih := parseStrAux_roundtrip cs rest
    by_cases h1 : c = '"'
    · subst h1
      rw [List.flatMap_cons, show escCharL '"' = ['\\', '"'] from rfl]
      simp only [List.cons_append, List.nil_append]
      rw [parseStrAux.eq_def]
      simp only []
      simp [escDecode, ih]
    · by_cases h2 : c = '\\'
      · subst h2
        rw [List.flatMap_cons, show escCharL '\\' = ['\\', '\\'] from rfl]
        simp only [List.cons_append, List.nil_append]
        rw [parseStrAux.eq_def]
        simp only []
        simp [escDecode, ih]
      · by_cases h3 : c.toNat < 32
        · have h0 : hexVal1 '0' = some 0 := by decide
          have ha := hexDigit_val ⟨c.toNat / 16, by omega⟩
          have hb := hexDigit_val ⟨c.toNat % 16, by omega⟩
          have hq : hexVal4 '0' '0' (hexDigit (c.toNat / 16)) (hexDigit (c.toNat % 16)) =
              some (c.toNat) := by
            simp only [hexVal4, h0, ha, hb]
            congr 1
            omega
          have hvalid : (c.toNat).isValidChar := Or.inl (by omega)
          have hesc : escCharL c = ['\\', 'u', '0', '0',
              hexDigit (c.toNat / 16), hexDigit (c.toNat % 16)] := by
            simp [escCharL, h1, h2, h3]
          rw [List.flatMap_cons, hesc]
          simp only [List.cons_append, List.nil_append]
          rw [parseStrAux.eq_def]
          simp only []
          simp [hq, hvalid, ih, Char.ofNat_toNat]
        · have hesc : escCharL c = [c] := by simp [escCharL, h1, h2, h3]
          rw [List.flatMap_cons, hesc]
          simp only [List.cons_append, List.nil_append]
          rw [parseStrAux.eq_def]
          simp only []
          simp [h1, h2, ih]

/-! ### base64 round trip -/

theorem b64Char_inv : ∀ i : Fin 64, b64IdxOfChar (b64CharOfIdx i.val) = some i.val ∧
    b64CharOfIdx i.val ≠ '=' ∧ (b64CharOfIdx i.val).toNat < 128 := by decide

theorem b64Char_inv' {i : Nat} (h : i < 64) :
    b64IdxOfChar (b64CharOfIdx i) = some i ∧ b64CharOfIdx i ≠ '=' ∧
    (b64CharOfIdx i).toNat < 128 := b64Char_inv ⟨i, h⟩

theorem b64EncodeChunks_filter : ∀ bs : List Nat, (∀ b ∈ bs, b < 256) →
    ((b64EncodeChunks bs).takeWhile (fun c => c ≠ '=')).filterMap b64IdxOfChar =
      b64Idxs bs
  | [], _ => rfl
  | [b1], h => by
    have hb1 : b1 < 256 := h b1 (by simp)
    have h1 := b64Char_inv' (show b1 / 4 < 64 by omega)
    have h2 := b64Char_inv' (show b1 % 4 * 16 < 64 by omega)
    simp [b64EncodeChunks, b64Idxs, List.takeWhile_cons, h1.1, h1.2.1, h2.1, h2.2.1]
  | [b1, b2], h => by
    have hb1 : b1 < 256 := h b1 (by simp)
    have hb2 : b2 < 256 := h b2 (by simp)
    have h1 := b64Char_inv' (show b1 / 4 < 64 by omega)
    have h2 := b64Char_inv' (show b1 % 4 * 16 + b2 / 16 < 64 by omega)
    have h3 := b64Char_inv' (show b2 % 16 * 4 < 64 by omega)
    simp [b64EncodeChunks, b64Idxs, List.takeWhile_cons,
      h1.1, h1.2.1, h2.1, h2.2.1, h3.1, h3.2.1]
  | b1 :: b2 :: b3 :: rest, h => by
    have hb1 : b1 < 256 := h b1 (by simp)
    have hb2 : b2 < 256 := h b2 (by simp)
    have hb3 : b3 < 256 := h b3 (by simp)
    have ih := b64EncodeChunks_filter rest (fun b hb => h b (by simp [hb]))
    have h1 := b64Char_inv' (show b1 / 4 < 64 by omega)
    have h2 := b64Char_inv' (show b1 % 4 * 16 + b2 / 16 < 64 by omega)
    have h3 := b64Char_inv' (show b2 % 16 * 4 + b3 / 64 < 64 by omega)
    have h4 := b64Char_inv' (show b3 % 64 < 64 by omega)
    simp only [ne_eq, decide_not] at ih
    simp [b64EncodeChunks, b64Idxs, List.takeWhile_cons,
      h1.1, h1.2.1, h2.1, h2.2.1, h3.1, h3.2.1, h4.1, h4.2.1, ih]

theorem b64DecodeChunks_idxs : ∀ bs : List Nat, (∀ b ∈ bs, b < 256) →
    b64DecodeChunks (b64Idxs bs) = some bs
  | [], _ => rfl
  | [b1], h => by
    have hb1 : b1 < 256 := h b1 (by simp)
    simp [b64Idxs, b64DecodeChunks]
    omega
  | [b1, b2], h => by
    have hb1 : b1 < 256 := h b1 (by simp)
    have hb2 : b2 < 256 := h b2 (by simp)
    simp [b64Idxs, b64DecodeChunks]
    omega
  | b1 :: b2 :: b3 :: rest, h => by
    have hb1 : b1 < 256 := h b1 (by simp)
    have hb2 : b2 < 256 := h b2 (by simp)
    have hb3 : b3 < 256 := h b3 (by simp)
    have ih := b64DecodeChunks_idxs rest (fun b hb => h b (by simp [hb]))
    cases rest with
    | nil =>
      simp [b64Idxs, b64DecodeChunks]
      omega
    | cons b4 rest2 =>
      show b64DecodeChunks (_ :: _ :: _ :: _ :: b64Idxs (b4 :: rest2)) = _
      rw [show ∀ i1 i2 i3 i4 tl, b64DecodeChunks (i1 :: i2 :: i3 :: i4 :: tl) =
        (match b64DecodeChunks tl with
         | some bs => some ((i1 * 4 + i2 / 16) :: (i2 % 16 * 16 + i3 / 4) ::
             (i3 % 4 * 64 + i4) :: bs)
         | none => none) from fun _ _ _ _ tl => by
          cases tl with
          | nil => rfl
          | cons x xs => rfl]
      rw [ih]
      simp
      omega

theorem b64Idxs_len_mod : ∀ bs : List Nat, (b64Idxs bs).length % 4 ≠ 1
  | [] => by simp [b64Idxs]
  | [_] => by simp [b64Idxs]
  | [_, _] => by simp [b64Idxs]
  | _ :: _ :: _ :: rest => by
    have ih := b64Idxs_len_mod rest
    simp only [b64Idxs, List.length_cons]
    omega

theorem b64EncodeChunks_ascii : ∀ bs : List Nat, (∀ b ∈ bs, b < 256) →
    ∀ c ∈ b64EncodeChunks bs, c.toNat < 128
  | [], _, c, hc => by simp [b64EncodeChunks] at hc
  | [b1], h, c, hc => by
    have hb1 : b1 < 256 := h b1 (by simp)
    have h1 := b64Char_inv' (show b1 / 4 < 64 by omega)
    have h2 := b64Char_inv' (show b1 % 4 * 16 < 64 by omega)
    simp [b64EncodeChunks] at hc
    rcases hc with rfl | rfl | rfl
    · exact h1.2.2
    · exact h2.2.2
    · decide
  | [b1, b2], h, c, hc => by
    have hb1 : b1 < 256 := h b1 (by simp)
    have hb2 : b2 < 256 := h b2 (by simp)
    have h1 := b64Char_inv' (show b1 / 4 < 64 by omega)
    have h2 := b64Char_inv' (show b1 % 4 * 16 + b2 / 16 < 64 by omega)
    have h3 := b64Char_inv' (show b2 % 16 * 4 < 64 by omega)
    simp [b64EncodeChunks] at hc
    rcases hc with rfl | rfl | rfl | rfl
    · exact h1.2.2
    · exact h2.2.2
    · exact h3.2.2
    · decide
  | b1 :: b2 :: b3 :: rest, h, c, hc => by
    have hb1 : b1 < 256 := h b1 (by simp)
    have hb2 : b2 < 256 := h b2 (by simp)
    have hb3 : b3 < 256 := h b3 (by simp)
    have ih := b64EncodeChunks_ascii rest (fun b hb => h b (by simp [hb]))
    have h1 := b64Char_inv' (show b1 / 4 < 64 by omega)
    have h2 := b64Char_inv' (show b1 % 4 * 16 + b2 / 16 < 64 by omega)
    have h3 := b64Char_inv' (show b2 % 16 * 4 + b3 / 64 < 64 by omega)
    have h4 := b64Char_inv' (show b3 % 64 < 64 by omega)
    rw [show b64EncodeChunks (b1 :: b2 :: b3 :: rest) = _ :: _ :: _ :: _ ::
        b64EncodeChunks rest from rfl] at hc
    simp only [List.mem_cons] at hc
    rcases hc with rfl | rfl | rfl | rfl | hc
    · exact h1.2.2
    · exact h2.2.2
    · exact h3.2.2
    · exact h4.2.2
    · exact ih c hc

theorem b64_roundtrip (bs : List Nat) (h : ∀ b ∈ bs, b < 256) :
    base64Decode (base64Encode bs) = some bs := by
  unfold base64Decode base64Encode
  have hascii : ((⟨b64EncodeChunks bs⟩ : String).data).all
      (fun c => decide (c.toNat < 128)) = true := by
    rw [List.all_eq_true]
    intro c hc
    simpa using b64EncodeChunks_ascii bs h c hc
  rw [if_pos (by simpa [List.all_eq_true] using hascii)]
  simp only [b64EncodeChunks_filter bs h]
  rw [if_neg (by simpa using b64Idxs_len_mod bs)]
  exact b64DecodeChunks_idxs bs h

/-! ### UTF-8 round trip -/

theorem char_toNat_valid (c : Char) : c.toNat.isValidChar := c.valid

theorem char_toNat_lt (c : Char) : c.toNat < 1114112 := by
  rcases char_toNat_valid c with h | ⟨h1, h2⟩
  · omega
  · omega

theorem utf8EncodeChar_ne_nil (c : Char) : utf8EncodeChar c ≠ [] := by
  simp only [utf8EncodeChar]
  split
  · simp
  · split
    · simp
    · split <;> simp

theorem utf8DecodeOne_enc (c : Char) (rest : List Nat) :
    utf8DecodeOne (utf8EncodeChar c ++ rest) = some (c, rest) := by
  have hval : c.toNat.isValidChar := char_toNat_valid c
  have hlt := char_toNat_lt c
  by_cases h1 : c.toNat < 128
  · have henc : utf8EncodeChar c = [c.toNat] := by
      simp [utf8EncodeChar, h1]
    rw [henc]
    simp only [List.cons_append, List.nil_append]
    simp [utf8DecodeOne, h1, hval, Char.ofNat_toNat]
  · by_cases h2 : c.toNat < 2048
    · have henc : utf8EncodeChar c = [192 + c.toNat / 64, 128 + c.toNat % 64] := by
        simp [utf8EncodeChar, h1, h2]
      have ha : ¬ (192 + c.toNat / 64 < 128) := by omega
      have hb : ¬ (192 + c.toNat / 64 < 192) := by omega
      have hcc : 192 + c.toNat / 64 < 224 := by omega
      have hc1 : 128 ≤ 128 + c.toNat % 64 := by omega
      have hc2 : 128 + c.toNat % 64 < 192 := by omega
      have hge : 128 ≤ c.toNat := by omega
      rw [henc]
      simp only [List.cons_append, List.nil_append]
      simp [utf8DecodeOne, ha, hb, hcc, isContByte, hc1, hc2, hge, hval]
      simp only [show c.toNat / 64 * 64 + c.toNat % 64 = c.toNat from by omega]
      exact ⟨⟨hge, hval⟩, Char.ofNat_toNat c⟩
    · by_cases h3 : c.toNat < 65536
      · have henc : utf8EncodeChar c =
            [224 + c.toNat / 4096, 128 + c.toNat / 64 % 64, 128 + c.toNat % 64] := by
          simp [utf8EncodeChar, h1, h2, h3]
        have ha : ¬ (224 + c.toNat / 4096 < 128) := by omega
        have hb : ¬ (224 + c.toNat / 4096 < 192) := by omega
        have hcc : ¬ (224 + c.toNat / 4096 < 224) := by omega
        have hd : 224 + c.toNat / 4096 < 240 := by omega
        have hc1 : 128 ≤ 128 + c.toNat / 64 % 64 := by omega
        have hc2 : 128 + c.toNat / 64 % 64 < 192 := by omega
        have hc3 : 128 ≤ 128 + c.toNat % 64 := by omega
        have hc4 : 128 + c.toNat % 64 < 192 := by omega
        have hge : 2048 ≤ c.toNat := by omega
        rw [henc]
        simp only [List.cons_append, List.nil_append]
        simp [utf8DecodeOne, ha, hb, hcc, hd, isContByte, hc1, hc2, hc3, hc4,
          hge, hval]
        simp only [show c.toNat / 4096 * 4096 + c.toNat / 64 % 64 * 64 +
          c.toNat % 64 = c.toNat from by omega]
        exact ⟨⟨hge, hval⟩, Char.ofNat_toNat c⟩
      · have henc : utf8EncodeChar c =
            [240 + c.toNat / 262144, 128 + c.toNat / 4096 % 64,
             128 + c.toNat / 64 % 64, 128 + c.toNat % 64] := by
          simp [utf8EncodeChar, h1, h2, h3]
        have ha : ¬ (240 + c.toNat / 262144 < 128) := by omega
        have hb : ¬ (240 + c.toNat / 262144 < 192) := by omega
        have hcc : ¬ (240 + c.toNat / 262144 < 224) := by omega
        have hd : ¬ (240 + c.toNat / 262144 < 240) := by omega
        have he : 240 + c.toNat / 262144 < 248 := by omega
        have hc1 : 128 ≤ 128 + c.toNat / 4096 % 64 := by omega
        have hc2 : 128 + c.toNat / 4096 % 64 < 192 := by omega
        have hc3 : 128 ≤ 128 + c.toNat / 64 % 64 := by omega
        have hc4 : 128 + c.toNat / 64 % 64 < 192 := by omega
        have hc5 : 128 ≤ 128 + c.toNat % 64 := by omega
        have hc6 : 128 + c.toNat % 64 < 192 := by omega
        have hge : 65536 ≤ c.toNat := by omega
        rw [henc]
        simp only [List.cons_append, List.nil_append]
        simp [utf8DecodeOne, ha, hb, hcc, hd, he, isContByte, hc1, hc2, hc3, hc4,
          hc5, hc6, hge, hval]
        simp only [show c.toNat / 262144 * 262144 + c.toNat / 4096 % 64 * 4096 +
          c.toNat / 64 % 64 * 64 + c.toNat % 64 = c.toNat from by omega]
        exact ⟨⟨hge, hval⟩, Char.ofNat_toNat c⟩

theorem utf8DecodeAux_enc : ∀ (cs : List Char) (f : Nat),
    (cs.flatMap utf8EncodeChar).length ≤ f →
    utf8DecodeAux f (cs.flatMap utf8EncodeChar) = some cs
  | [], f, _ => by cases f <;> rfl
  | c :: cs, f, hf => by
    obtain ⟨b, bt, hb⟩ : ∃ b bt, utf8EncodeChar c = b :: bt := by
      cases hce : utf8EncodeChar c with
      | nil => exact absurd hce (utf8EncodeChar_ne_nil c)
      | cons x xs => exact ⟨x, xs, rfl⟩
    have hlen1 : 1 ≤ (utf8EncodeChar c).length := by rw [hb]; simp
    cases f with
    | zero =>
      exfalso
      rw [List.flatMap_cons, List.length_append] at hf
      omega
    | succ f =>
      have hdec := utf8DecodeOne_enc c (cs.flatMap utf8EncodeChar)
      have hrec := utf8DecodeAux_enc cs f (by
        rw [List.flatMap_cons, List.length_append] at hf
        omega)
      rw [List.flatMap_cons]
      rw [show utf8EncodeChar c ++ cs.flatMap utf8EncodeChar =
        b :: (bt ++ cs.flatMap utf8EncodeChar) from by rw [hb]; simp]
      show utf8DecodeAux (f + 1) _ = _
      simp only [utf8DecodeAux]
      rw [show b :: (bt ++ cs.flatMap utf8EncodeChar) =
        utf8EncodeChar c ++ cs.flatMap utf8EncodeChar from by rw [hb]; simp]
      rw [hdec]
      simp [hrec]

theorem utf8_roundtrip (s : String) : utf8Decode (utf8Encode s) = some s := by
  unfold utf8Decode utf8Encode
  rw [utf8DecodeAux_enc s.data _ le_rfl]

theorem utf8EncodeChar_lt (c : Char) : ∀ b ∈ utf8EncodeChar c, b < 256 := by
  have hlt := char_toNat_lt c
  intro b hb
  by_cases h1 : c.toNat < 128
  · rw [show utf8EncodeChar c = [c.toNat] from by simp [utf8EncodeChar, h1]] at hb
    simp at hb
    omega
  · by_cases h2 : c.toNat < 2048
    · rw [show utf8EncodeChar c = [192 + c.toNat / 64, 128 + c.toNat % 64] from by
        simp [utf8EncodeChar, h1, h2]] at hb
      simp at hb
      rcases hb with rfl | rfl <;> omega
    · by_cases h3 : c.toNat < 65536
      · rw [show utf8EncodeChar c =
            [224 + c.toNat / 4096, 128 + c.toNat / 64 % 64, 128 + c.toNat % 64] from by
          simp [utf8EncodeChar, h1, h2, h3]] at hb
        simp at hb
        rcases hb with rfl | rfl | rfl <;> omega
      · rw [show utf8EncodeChar c =
            [240 + c.toNat / 262144, 128 + c.toNat / 4096 % 64,
             128 + c.toNat / 64 % 64, 128 + c.toNat % 64] from by
          simp [utf8EncodeChar, h1, h2, h3]] at hb
        simp at hb
        rcases hb with rfl | rfl | rfl | rfl <;> omega

theorem utf8Encode_lt (s : String) : ∀ b ∈ utf8Encode s, b < 256 := by
  intro b hb
  unfold utf8Encode at hb
  rcases List.mem_flatMap.mp hb with ⟨c, _, hbc⟩
  exact utf8EncodeChar_lt c b hbc

/-! ### Head character of a serialized value -/

theorem isDigit_bounds {c : Char} (h : c.isDigit = true) :
    48 ≤ c.toNat ∧ c.toNat ≤ 57 := by
  simp [Char.isDigit] at h
  obtain ⟨h1, h2⟩ := h
  exact ⟨h1, h2⟩

theorem start_char_facts {c : Char} (h : StartChar c) :
    isWsChar c = false ∧ c ≠ ']' := by
  rcases h with rfl | rfl | rfl | rfl | rfl | rfl | rfl | hd
  · exact ⟨by decide, by decide⟩
  · exact ⟨by decide, by decide⟩
  · exact ⟨by decide, by decide⟩
  · exact ⟨by decide, by decide⟩
  · exact ⟨by decide, by decide⟩
  · exact ⟨by decide, by decide⟩
  · exact ⟨by decide, by decide⟩
  · have hb := isDigit_bounds hd
    constructor
    · cases hw : isWsChar c with
      | false => rfl
      | true =>
        exfalso
        simp [isWsChar] at hw
        rcases hw with ((rfl | rfl) | rfl) | rfl <;> simp at hb
    · intro hc
      subst hc
      simp at hb

theorem encV_head (v : JVal) : ∃ c cs,
    (encV "," ":" v).data = c :: cs ∧ StartChar c := by
  cases v with
  | null => exact ⟨'n', _, rfl, by simp [StartChar]⟩
  | bool b =>
    cases b with
    | true => exact ⟨'t', _, rfl, by simp [StartChar]⟩
    | false => exact ⟨'f', _, rfl, by simp [StartChar]⟩
  | str s =>
    exact ⟨'"', _, rfl, by simp [StartChar]⟩
  | arr xs =>
    refine ⟨'[', (encAFirst "," ":" xs).data ++ [']'], ?_, by simp [StartChar]⟩
    show ((("[" : String) ++ encAFirst "," ":" xs ++ "]").data) = _
    simp [String.data_append]
  | obj ps =>
    refine ⟨Char.ofNat 123, (encOFirst "," ":" ps).data ++ [Char.ofNat 125], ?_,
      by simp [StartChar]⟩
    show ((("\x7b" : String) ++ encOFirst "," ":" ps ++ "\x7d").data) = _
    simp [String.data_append]
  | int n =>
    show ∃ c cs, (intRepr n).data = c :: cs ∧ StartChar c
    unfold intRepr
    by_cases hn : n < 0
    · rw [if_pos hn]
      refine ⟨'-', (natRepr n.natAbs).data, ?_, by simp [StartChar]⟩
      simp [String.data_append]
    · rw [if_neg hn]
      show ∃ c cs, natChars n.natAbs = c :: cs ∧ StartChar c
      have hs := natChars_spec n.natAbs
      cases hnc : natChars n.natAbs with
      | nil => exact absurd hnc hs.1
      | cons d ds =>
        refine ⟨d, ds, rfl, Or.inr (Or.inr (Or.inr (Or.inr (Or.inr (Or.inr
          (Or.inr ?_))))))⟩
        exact hs.2.1 d (by rw [hnc]; simp)

theorem encV_len_pos (v : JVal) : 1 ≤ (encV "," ":" v).data.length := by
  obtain ⟨c, cs, hd, _⟩ := encV_head v
  rw [hd]
  simp

/-! ### objFromPairs is a left inverse of JObj.toList on nodup-key objects -/

theorem foldl_dictInsert_fresh : ∀ (l : List (String × JVal)) (acc : Rec),
    (∀ p ∈ l, p.1 ∉ acc.map Prod.fst) → (l.map Prod.fst).Nodup →
    l.foldl (fun d p => dictInsert p.1 p.2 d) acc = acc ++ l
  | [], acc, _, _ => by simp
  | (k, v) :: l, acc, hdisj, hnd => by
    have hk : ((acc.map Prod.fst).contains k) = false := by
      have hm := hdisj (k, v) (by simp)
      simp [List.contains, List.elem_eq_mem, hm]
    simp only [List.foldl_cons]
    rw [show dictInsert k v acc = acc ++ [(k, v)] from by
      unfold dictInsert
      rw [hk]
      simp]
    rw [List.map_cons, List.nodup_cons] at hnd
    rw [foldl_dictInsert_fresh l (acc ++ [(k, v)])
      (by
        intro p hp
        simp only [List.map_append, List.mem_append]
        rintro (hcase | hcase)
        · exact hdisj p (by simp [hp]) hcase
        · simp at hcase
          exact hnd.1 (List.mem_map.mpr ⟨p, hp, hcase⟩))
      hnd.2]
    simp

theorem JObj_toList_map_fst : ∀ ps : JObj,
    (JObj.toList ps).map Prod.fst = ps.keys
  | .nil => rfl
  | .cons k v ps => by
    simp [JObj.toList, JObj.keys, JObj_toList_map_fst ps]

theorem JObj_ofList_toList : ∀ ps : JObj, JObj.ofList (JObj.toList ps) = ps
  | .nil => rfl
  | .cons k v ps => by
    simp [JObj.toList, JObj.ofList, JObj_ofList_toList ps]

theorem JArr_ofList_toList : ∀ xs : JArr, JArr.ofList (JArr.toList xs) = xs
  | .nil => rfl
  | .cons x xs => by
    simp [JArr.toList, JArr.ofList, JArr_ofList_toList xs]

theorem objFromPairs_toList (ps : JObj) (h : ps.keys.Nodup) :
    objFromPairs (JObj.toList ps) = ps := by
  unfold objFromPairs
  rw [foldl_dictInsert_fresh (JObj.toList ps) [] (by simp)
    (by rw [JObj_toList_map_fst]; exact h)]
  rw [List.nil_append, JObj_ofList_toList]

/-! ### The parser fails outright on a non-JSON head character -/

theorem parseVal_bad_head (f : Nat) (c : Char) (tl : List Char)
    (hws : isWsChar c = false) (h1 : c ≠ Char.ofNat 123) (h2 : c ≠ '[')
    (h3 : c ≠ '"') (h4 : c ≠ 't') (h5 : c ≠ 'f') (h6 : c ≠ 'n')
    (h7 : c ≠ '-') (h8 : c.isDigit = false) :
    parseVal f (c :: tl) = none := by
  cases f with
  | zero => rfl
  | succ f =>
    simp only [parseVal]
    rw [skipWs_not_ws hws]
    simp only []
    simp [h1, h2, h3, h4, h5, h6, h7, h8]

theorem b64EncodeChunks_head (b : Nat) (bs : List Nat) :
    ∃ tl, b64EncodeChunks (b :: bs) = b64CharOfIdx (b / 4) :: tl := by
  cases bs with
  | nil => exact ⟨_, rfl⟩
  | cons b2 bs2 =>
    cases bs2 with
    | nil => exact ⟨_, rfl⟩
    | cons b3 bs3 => exact ⟨_, rfl⟩

theorem start_byte_b64 {c : Char} (h : StartChar c) :
    c.toNat < 128 ∧
    isWsChar (b64CharOfIdx (c.toNat / 4)) = false ∧
    b64CharOfIdx (c.toNat / 4) ≠ Char.ofNat 123 ∧
    b64CharOfIdx (c.toNat / 4) ≠ '[' ∧
    b64CharOfIdx (c.toNat / 4) ≠ '"' ∧
    b64CharOfIdx (c.toNat / 4) ≠ 't' ∧
    b64CharOfIdx (c.toNat / 4) ≠ 'f' ∧
    b64CharOfIdx (c.toNat / 4) ≠ 'n' ∧
    b64CharOfIdx (c.toNat / 4) ≠ '-' ∧
    (b64CharOfIdx (c.toNat / 4)).isDigit = false := by
  rcases h with rfl | rfl | rfl | rfl | rfl | rfl | rfl | hd
  · decide
  · decide
  · decide
  · decide
  · decide
  · decide
  · decide
  · have hb := isDigit_bounds hd
    refine ⟨by omega, ?_⟩
    have h4 : c.toNat / 4 = 12 ∨ c.toNat / 4 = 13 ∨ c.toNat / 4 = 14 := by omega
    rcases h4 with h4 | h4 | h4 <;> rw [h4] <;> decide

theorem jsonLoads_b64_none (v : JVal) :
    jsonLoads (base64Encode (utf8Encode (jsonEncode v))) = none := by
  obtain ⟨c0, cs0, hd, hs⟩ := encV_head v
  obtain ⟨hlt, hws, h1, h2, h3, h4, h5, h6, h7, h8⟩ := start_byte_b64 hs
  have henc : utf8EncodeChar c0 = [c0.toNat] := by simp [utf8EncodeChar, hlt]
  have hbytes : utf8Encode (jsonEncode v) = c0.toNat :: cs0.flatMap utf8EncodeChar := by
    show (encV "," ":" v).data.flatMap utf8EncodeChar = _
    rw [hd, List.flatMap_cons, henc]
    simp
  obtain ⟨tl, htl⟩ := b64EncodeChunks_head c0.toNat (cs0.flatMap utf8EncodeChar)
  have hdata : (base64Encode (utf8Encode (jsonEncode v))).data =
      b64CharOfIdx (c0.toNat / 4) :: tl := by
    show b64EncodeChunks (utf8Encode (jsonEncode v)) = _
    rw [hbytes, htl]
  unfold jsonLoads
  rw [hdata, parseVal_bad_head _ _ _ hws h1 h2 h3 h4 h5 h6 h7 h8]

theorem digit_head_ne {c : Char} (h : c.isDigit = true) :
    c ≠ Char.ofNat 123 ∧ c ≠ '[' ∧ c ≠ '"' ∧ c ≠ 't' ∧ c ≠ 'f' ∧ c ≠ 'n' ∧
      c ≠ '-' := by
  refine ⟨?_, ?_, ?_, ?_, ?_, ?_, ?_⟩ <;>
    (intro hc; subst hc; exact absurd h (by decide))

theorem encStr_data (s : String) :
    (encStr s).data = '"' :: (s.data.flatMap escCharL ++ ['"']) := rfl

theorem encStr_len (s : String) : 2 ≤ (encStr s).data.length := by
  rw [encStr_data]
  simp

theorem encV_arr_data (x : JVal) (xs : JArr) :
    (encV "," ":" (.arr (.cons x xs))).data =
      '[' :: ((encV "," ":" x).data ++ ((encARest "," ":" xs).data ++ [']'])) := by
  show ("[" ++ encAFirst "," ":" (.cons x xs) ++ "]").data = _
  simp [encAFirst, String.data_append,
    show ("[" : String).data = ['['] from rfl,
    show ("]" : String).data = [']'] from rfl]

theorem encV_obj_data (k : String) (v : JVal) (ps : JObj) :
    (encV "," ":" (.obj (.cons k v ps))).data =
      Char.ofNat 123 :: ((encStr k).data ++ (':' :: ((encV "," ":" v).data ++
        ((encORest "," ":" ps).data ++ [Char.ofNat 125])))) := by
  show ("\x7b" ++ encOFirst "," ":" (.cons k v ps) ++ "\x7d").data = _
  simp [encOFirst, String.data_append,
    show ("\x7b" : String).data = [Char.ofNat 123] from rfl,
    show ("\x7d" : String).data = [Char.ofNat 125] from rfl,
    show (":" : String).data = [':'] from rfl]

theorem encARest_cons_data (x : JVal) (xs : JArr) :
    (encARest "," ":" (.cons x xs)).data =
      ',' :: ((encV "," ":" x).data ++ (encARest "," ":" xs).data) := by
  show ("," ++ encV "," ":" x ++ encARest "," ":" xs).data = _
  simp [String.data_append, show ("," : String).data = [','] from rfl]

theorem encORest_cons_data (k : String) (v : JVal) (ps : JObj) :
    (encORest "," ":" (.cons k v ps)).data =
      ',' :: ((encStr k).data ++ (':' :: ((encV "," ":" v).data ++
        (encORest "," ":" ps).data))) := by
  show ("," ++ encStr k ++ ":" ++ encV "," ":" v ++ encORest "," ":" ps).data = _
  simp [String.data_append, show ("," : String).data = [','] from rfl,
    show (":" : String).data = [':'] from rfl]

theorem encARest_nil_data : (encARest "," ":" .nil).data = [] := rfl

theorem encORest_nil_data : (encORest "," ":" .nil).data = [] := rfl

theorem parse_enc_bundle : ∀ f : Nat,
    (∀ v rest, wfV v = true → SepAfter rest →
      (encV "," ":" v).data.length < f →
      parseVal f ((encV "," ":" v).data ++ rest) = some (v, rest)) ∧
    (∀ x xs rest, wfV x = true → wfA xs = true →
      (encV "," ":" x).data.length + (encARest "," ":" xs).data.length + 2 ≤ f →
      parseElems f ((encV "," ":" x).data ++
        ((encARest "," ":" xs).data ++ ']' :: rest)) =
        some (x :: JArr.toList xs, rest)) ∧
    (∀ k v ps rest, wfV v = true → wfO ps = true →
      (encStr k).data.length + 1 + (encV "," ":" v).data.length +
        (encORest "," ":" ps).data.length + 2 ≤ f →
      parseMembers f ((encStr k).data ++ ':' :: ((encV "," ":" v).data ++
        ((encORest "," ":" ps).data ++ Char.ofNat 125 :: rest))) =
        some ((k, v) :: JObj.toList ps, rest)) := by
  intro f
  induction f with
  | zero =>
    exact ⟨fun v rest _ _ hlen => absurd hlen (by omega),
      fun x xs rest _ _ hlen => absurd hlen (by omega),
      fun k v ps rest _ _ hlen => absurd hlen (by omega)⟩
  | succ f ih =>
    obtain ⟨ih1, ih2, ih3⟩ := ih
    refine ⟨?_, ?_, ?_⟩
    · -- parseVal on a serialized value
      intro v rest hwf hsep hlen
      cases v with
      | null =>
        show parseVal (f + 1) ('n' :: 'u' :: 'l' :: 'l' :: rest) = some (.null, rest)
        simp only [parseVal]
        rw [skipWs_not_ws (by decide)]
        simp only []
        simp
      | bool b =>
        cases b with
        | true =>
          show parseVal (f + 1) ('t' :: 'r' :: 'u' :: 'e' :: rest) =
            some (.bool true, rest)
          simp only [parseVal]
          rw [skipWs_not_ws (by decide)]
          simp only []
          simp
        | false =>
          show parseVal (f + 1) ('f' :: 'a' :: 'l' :: 's' :: 'e' :: rest) =
            some (.bool false, rest)
          simp only [parseVal]
          rw [skipWs_not_ws (by decide)]
          simp only []
          simp
      | int n =>
        by_cases hn : n < 0
        · have hrepr : (encV "," ":" (.int n)).data = '-' :: natChars n.natAbs := by
            show (intRepr n).data = _
            unfold intRepr
            rw [if_pos hn]
            simp [String.data_append, show ("-" : String).data = ['-'] from rfl]
            rfl
          rw [hrepr]
          simp only [List.cons_append]
          simp only [parseVal]
          rw [skipWs_not_ws (by decide)]
          simp only []
          have hnc := natChars_spec n.natAbs
          have hpn : parseNatNum (natChars n.natAbs ++ rest) =
              some (n.natAbs, rest) := by
            rw [parseNatNum_digits _ _ hnc.1 hnc.2.1 hsep, hnc.2.2]
          have hcast : (-(n.natAbs : Int)) = n := by omega
          have hcast2 : -|n| = n := by rw [abs_of_neg hn, neg_neg]
          simp [hpn, hcast, hcast2]
        · have hrepr : (encV "," ":" (.int n)).data = natChars n.natAbs := by
            show (intRepr n).data = _
            unfold intRepr
            rw [if_neg hn]
            rfl
          rw [hrepr]
          have hnc := natChars_spec n.natAbs
          cases hh : natChars n.natAbs with
          | nil => exact absurd hh hnc.1
          | cons d ds =>
            have hd : d.isDigit = true := hnc.2.1 d (by rw [hh]; simp)
            have hne := digit_head_ne hd
            have hws : isWsChar d = false :=
              (start_char_facts (Or.inr (Or.inr (Or.inr (Or.inr (Or.inr (Or.inr
                (Or.inr hd)))))))).1
            simp only [List.cons_append]
            simp only [parseVal]
            rw [skipWs_not_ws hws]
            simp only []
            have hpn : parseNatNum (d :: (ds ++ rest)) = some (n.natAbs, rest) := by
              rw [show d :: (ds ++ rest) = (d :: ds) ++ rest from rfl, ← hh]
              rw [parseNatNum_digits _ _ hnc.1 hnc.2.1 hsep, hnc.2.2]
            have hcast : ((n.natAbs : Int)) = n := by omega
            simp [hne.1, hne.2.1, hne.2.2.1, hne.2.2.2.1, hne.2.2.2.2.1,
              hne.2.2.2.2.2.1, hne.2.2.2.2.2.2, hd, hpn, hcast]
      | str s =>
        have hrepr : (encV "," ":" (.str s)).data ++ rest =
            '"' :: (s.data.flatMap escCharL ++ ('"' :: rest)) := by
          show (encStr s).data ++ rest = _
          rw [encStr_data]
          simp
        rw [hrepr]
        simp only [parseVal]
        rw [skipWs_not_ws (by decide)]
        simp only []
        simp [parseStrAux_roundtrip]
      | arr xs =>
        cases xs with
        | nil =>
          show parseVal (f + 1) ('[' :: ']' :: rest) = some (.arr .nil, rest)
          simp only [parseVal]
          rw [skipWs_not_ws (by decide)]
          simp only []
          rw [skipWs_not_ws (by decide)]
          simp
        | cons x xs =>
          have hx : wfV x = true ∧ wfA xs = true := by
            simp [wfV, wfA] at hwf
            exact hwf
          rw [encV_arr_data] at hlen
          simp only [List.length_cons, List.length_append, List.length_nil] at hlen
          have hlen' : (encV "," ":" x).data.length +
              (encARest "," ":" xs).data.length + 2 ≤ f := by omega
          obtain ⟨c2, cs2, hd2, hs2⟩ := encV_head x
          have hf2 := start_char_facts hs2
          have hglue : (encV "," ":" x).data ++
              ((encARest "," ":" xs).data ++ (']' :: rest)) =
              c2 :: (cs2 ++ ((encARest "," ":" xs).data ++ (']' :: rest))) := by
            rw [hd2]
            rfl
          have hrepr : (encV "," ":" (.arr (.cons x xs))).data ++ rest =
              '[' :: ((encV "," ":" x).data ++
                ((encARest "," ":" xs).data ++ (']' :: rest))) := by
            rw [encV_arr_data]
            simp
          rw [hrepr]
          simp only [parseVal]
          rw [skipWs_not_ws (by decide)]
          simp only []
          have hsw : skipWs ((encV "," ":" x).data ++
              ((encARest "," ":" xs).data ++ (']' :: rest))) =
              c2 :: (cs2 ++ ((encARest "," ":" xs).data ++ (']' :: rest))) := by
            rw [hglue]
            exact skipWs_not_ws hf2.1 _
          have hpe := ih2 x xs rest hx.1 hx.2 hlen'
          have hpe2 : parseElems f
              (c2 :: (cs2 ++ ((encARest "," ":" xs).data ++ (']' :: rest)))) =
              some (x :: JArr.toList xs, rest) := by
            rw [← hglue]
            exact hpe
          simp [hsw, hf2.2, hpe2, JArr.ofList, JArr_ofList_toList]
      | obj ps =>
        cases ps with
        | nil =>
          show parseVal (f + 1) (Char.ofNat 123 :: Char.ofNat 125 :: rest) =
            some (.obj .nil, rest)
          simp only [parseVal]
          rw [skipWs_not_ws (by decide)]
          simp only []
          rw [skipWs_not_ws (by decide)]
          simp
        | cons k v ps =>
          have hx : (JObj.cons k v ps).keys.Nodup ∧ wfV v = true ∧ wfO ps = true := by
            simp only [wfV, wfO, Bool.and_eq_true, decide_eq_true_eq] at hwf
            exact ⟨hwf.1, hwf.2⟩
          rw [encV_obj_data] at hlen
          simp only [List.length_cons, List.length_append, List.length_nil] at hlen
          have hlen' : (encStr k).data.length + 1 + (encV "," ":" v).data.length +
              (encORest "," ":" ps).data.length + 2 ≤ f := by omega
          have hrepr : (encV "," ":" (.obj (.cons k v ps))).data ++ rest =
              Char.ofNat 123 :: ((encStr k).data ++ ':' :: ((encV "," ":" v).data ++
                ((encORest "," ":" ps).data ++ Char.ofNat 125 :: rest))) := by
            rw [encV_obj_data]
            simp
          rw [hrepr]
          simp only [parseVal]
          rw [skipWs_not_ws (by decide)]
          simp only []
          have hks : (encStr k).data ++ ':' :: ((encV "," ":" v).data ++
              ((encORest "," ":" ps).data ++ Char.ofNat 125 :: rest)) =
              '"' :: (k.data.flatMap escCharL ++ ('"' :: (':' :: ((encV "," ":" v).data ++
                ((encORest "," ":" ps).data ++ Char.ofNat 125 :: rest))))) := by
            rw [encStr_data]
            simp
          have hsw : skipWs ((encStr k).data ++ ':' :: ((encV "," ":" v).data ++
              ((encORest "," ":" ps).data ++ Char.ofNat 125 :: rest))) =
              '"' :: (k.data.flatMap escCharL ++ ('"' :: (':' :: ((encV "," ":" v).data ++
                ((encORest "," ":" ps).data ++ Char.ofNat 125 :: rest))))) := by
            rw [hks]
            exact skipWs_not_ws (by decide) _
          have hpm := ih3 k v ps rest hx.2.1 hx.2.2 hlen'
          have hpm2 : parseMembers f
              ('"' :: (k.data.flatMap escCharL ++ ('"' :: (':' :: ((encV "," ":" v).data ++
                ((encORest "," ":" ps).data ++ Char.ofNat 125 :: rest)))))) =
              some ((k, v) :: JObj.toList ps, rest) := by
            rw [← hks]
            exact hpm
          have hobj : objFromPairs ((k, v) :: JObj.toList ps) = JObj.cons k v ps :=
            objFromPairs_toList (JObj.cons k v ps) hx.1
          simp [hsw, hpm2, hobj]
    · -- parseElems on serialized elements followed by a closing bracket
      intro x xs rest hwx hwxs hlen
      have hLx := encV_len_pos x
      simp only [parseElems]
      have hsep' : SepAfter ((encARest "," ":" xs).data ++ (']' :: rest)) := by
        cases xs with
        | nil =>
          refine Or.inr ⟨']', rest, ?_, Or.inr (Or.inl rfl)⟩
          rw [encARest_nil_data]
          rfl
        | cons x2 xs2 =>
          rw [encARest_cons_data]
          exact Or.inr ⟨',', _, rfl, Or.inl rfl⟩
      have hp1 := ih1 x ((encARest "," ":" xs).data ++ (']' :: rest)) hwx hsep'
        (by omega)
      rw [hp1]
      simp only []
      cases xs with
      | nil =>
        rw [encARest_nil_data]
        simp only [List.nil_append]
        rw [skipWs_not_ws (by decide)]
        simp [JArr.toList]
      | cons x2 xs2 =>
        have hx2 : wfV x2 = true ∧ wfA xs2 = true := by
          simp [wfA] at hwxs
          exact hwxs
        rw [encARest_cons_data] at hlen
        simp only [List.length_cons, List.length_append, List.length_nil] at hlen
        have hlen2 : (encV "," ":" x2).data.length +
            (encARest "," ":" xs2).data.length + 2 ≤ f := by omega
        rw [encARest_cons_data]
        simp only [List.cons_append]
        rw [skipWs_not_ws (by decide)]
        simp only []
        rw [List.append_assoc]
        rw [ih2 x2 xs2 rest hx2.1 hx2.2 hlen2]
        simp [JArr.toList]
    · -- parseMembers on serialized members followed by a closing brace
      intro k v ps rest hwv hwps hlen
      have hK := encStr_len k
      have hLv := encV_len_pos v
      simp only [parseMembers]
      have hks : (encStr k).data ++ ':' :: ((encV "," ":" v).data ++
          ((encORest "," ":" ps).data ++ Char.ofNat 125 :: rest)) =
          '"' :: (k.data.flatMap escCharL ++ ('"' :: (':' :: ((encV "," ":" v).data ++
            ((encORest "," ":" ps).data ++ Char.ofNat 125 :: rest))))) := by
        rw [encStr_data]
        simp
      rw [hks]
      rw [skipWs_not_ws (by decide)]
      simp only []
      rw [parseStrAux_roundtrip k.data
        (':' :: ((encV "," ":" v).data ++
          ((encORest "," ":" ps).data ++ Char.ofNat 125 :: rest)))]
      simp only []
      rw [skipWs_not_ws (by decide)]
      simp only []
      have hsep' : SepAfter ((encORest "," ":" ps).data ++ (Char.ofNat 125 :: rest)) := by
        cases ps with
        | nil =>
          refine Or.inr ⟨Char.ofNat 125, rest, ?_, Or.inr (Or.inr rfl)⟩
          rw [encORest_nil_data]
          rfl
        | cons k2 v2 ps2 =>
          rw [encORest_cons_data]
          exact Or.inr ⟨',', _, rfl, Or.inl rfl⟩
      have hp1 := ih1 v ((encORest "," ":" ps).data ++ (Char.ofNat 125 :: rest))
        hwv hsep' (by omega)
      rw [hp1]
      simp only []
      cases ps with
      | nil =>
        rw [encORest_nil_data]
        simp only [List.nil_append]
        rw [skipWs_not_ws (by decide)]
        simp [JObj.toList]
      | cons k2 v2 ps2 =>
        have hx2 : wfV v2 = true ∧ wfO ps2 = true := by
          simp [wfO] at hwps
          exact hwps
        rw [encORest_cons_data] at hlen
        simp only [List.length_cons, List.length_append, List.length_nil] at hlen
        have hlen2 : (encStr k2).data.length + 1 + (encV "," ":" v2).data.length +
            (encORest "," ":" ps2).data.length + 2 ≤ f := by omega
        rw [encORest_cons_data]
        simp only [List.cons_append]
        rw [skipWs_not_ws (by decide)]
        simp only []
        rw [List.append_assoc, List.cons_append, List.append_assoc]
        rw [ih3 k2 v2 ps2 rest hx2.1 hx2.2 hlen2]
        simp [JObj.toList]

theorem jsonLoads_encode (v : JVal) (h : wfV v = true) :
    jsonLoads (jsonEncode v) = some v := by
  have hp := (parse_enc_bundle ((encV "," ":" v).data.length + 1)).1 v [] h
    (Or.inl rfl) (by omega)
  rw [List.append_nil] at hp
  show jsonLoads (encV "," ":" v) = some v
  unfold jsonLoads
  rw [hp]
  rfl

theorem utf8Encode_enc_ne_nil (v : JVal) : utf8Encode (jsonEncode v) ≠ [] := by
  obtain ⟨c, cs, hd, _⟩ := encV_head v
  show (encV "," ":" v).data.flatMap utf8EncodeChar ≠ []
  rw [hd, List.flatMap_cons]
  intro hcontra
  rcases List.append_eq_nil.mp hcontra with ⟨h1, _⟩
  exact utf8EncodeChar_ne_nil c h1

/-- C4: decoder round trip — for every JSON-serializable value `v` (modelled as
    a `JVal` whose objects have pairwise-distinct keys, the only shape a JSON
    round trip can produce), `decode_content` applied to the base64 encoding of
    the UTF-8 bytes of the JSON serialization of `v` recovers `v` itself: the
    direct JSON parse of the base64 text fails (its first character starts no
    JSON value), base64 then UTF-8 decoding restore the serialized text, and
    Python `json.loads` parses it back to a structurally equal value. -/
theorem decode_content_roundtrip (v : JVal) (h : wfV v = true) :
    decode_content (.str (base64Encode (utf8Encode (jsonEncode v)))) = some v := by
  have hne : (base64Encode (utf8Encode (jsonEncode v))) ≠ "" := by
    intro hcontra
    have hdn : b64EncodeChunks (utf8Encode (jsonEncode v)) = [] := by
      have := congrArg String.data hcontra
      simpa [base64Encode] using this
    cases hb : utf8Encode (jsonEncode v) with
    | nil => exact utf8Encode_enc_ne_nil v hb
    | cons b bs =>
      obtain ⟨tl, htl⟩ := b64EncodeChunks_head b bs
      rw [hb, htl] at hdn
      simp at hdn
  have hfal : (JVal.str (base64Encode (utf8Encode (jsonEncode v)))).falsy = false := by
    simp [JVal.falsy, hne]
  unfold decode_content
  rw [hfal]
  simp only [Bool.false_eq_true, if_false]
  rw [jsonLoads_b64_none v, b64_roundtrip _ (utf8Encode_lt (jsonEncode v))]
  simp only []
  unfold tryEncodings
  rw [utf8_roundtrip (jsonEncode v)]
  simp only [Option.some_bind]
  rw [jsonLoads_encode v h]

theorem decode_content_roundtrip_witness :
    wfV (JVal.obj (.cons "a" (.int (-5)) (.cons "b" (.arr (.cons (.str "x、y")
      (.cons (.bool true) (.cons .null .nil)))) (.cons "c" (.obj .nil) .nil)))) = true ∧
    decode_content (.str (base64Encode (utf8Encode (jsonEncode
      (JVal.obj (.cons "a" (.int (-5)) (.cons "b" (.arr (.cons (.str "x、y")
        (.cons (.bool true) (.cons .null .nil)))) (.cons "c" (.obj .nil) .nil)))))))) =
      some (JVal.obj (.cons "a" (.int (-5)) (.cons "b" (.arr (.cons (.str "x、y")
        (.cons (.bool true) (.cons .null .nil)))) (.cons "c" (.obj .nil) .nil)))) :=
  ⟨rfl, decode_content_roundtrip _ rfl⟩
